import Mathlib

/-!
Verification of the memory-pool allocator in src/Memory/mempool.c.

The embedding models the arena as an association list from block addresses
(byte offsets, as in the C code where addresses are uintptr_t values) to
block headers.  Machine arithmetic on size_t is 64-bit: expressions that can
wrap are computed with an explicit modulus U64.  The manager record mirrors
the static manager struct of the source.  Payload bytes are not modelled:
no claim depends on user data contents.
-/

namespace Mempool

/-- Width of size_t and uintptr_t on the target platform (64 bits). -/
def U64 : Nat := 2 ^ 64

/-- Wrapping subtraction on 64-bit unsigned values, as in a -= b on size_t. -/
def subU64 (a b : Nat) : Nat := (a + (U64 - b % U64)) % U64

/-- Rounding an address up to the next multiple of 8, as in
(top + ALIGN) and ALIGN_MASK with ALIGN = 7 in the source. -/
def alignUp8 (a : Nat) : Nat := ((a + 7) / 8) * 8

/-- The struct block header of mempool.c: doubly linked list node hidden
before each user region.  prev and next are addresses (none models NULL),
size is the byte length handed to the user, available marks a free block,
top_gap is the alignment padding consumed in front of this header. -/
structure Block where
  prev : Option Nat
  next : Option Nat
  size : Nat
  available : Bool
  top_gap : Nat
deriving Repr, DecidableEq

/-- The static manager struct of mempool.c, with the arena contents
abstracted to a finite map from header addresses to block records. -/
structure Manager where
  head : Option Nat
  tail : Option Nat
  max_free : Nat
  available : Nat
  pool : Option Nat
  top : Nat
  blocks : List (Nat × Block)
deriving Repr, DecidableEq

/-- The initial value of the manager static, all fields zeroed. -/
def Manager.initial : Manager :=
  { head := none, tail := none, max_free := 0, available := 0,
    pool := none, top := 0, blocks := [] }

/-- Reading the block header stored at an address. -/
def lookup (bs : List (Nat × Block)) (a : Nat) : Option Block :=
  match bs with
  | [] => none
  | (k, b) :: t => if k = a then some b else lookup t a

/-- Writing the block header stored at an address. -/
def update (bs : List (Nat × Block)) (a : Nat) (b : Block) : List (Nat × Block) :=
  match bs with
  | [] => [(a, b)]
  | (k, b0) :: t => if k = a then (a, b) :: t else (k, b0) :: update t a b

/-- The MEMPOOL_DEBUG block of pfree zeroes every field of a header that was
absorbed by a merge.  The header bytes stay inside the arena, so the entry
stays in the map with all fields cleared. -/
def clearBlock (bs : List (Nat × Block)) (a : Nat) : List (Nat × Block) :=
  match lookup bs a with
  | some _ =>
      update bs a { prev := none, next := none, size := 0,
                    available := false, top_gap := 0 }
  | none => bs

/-- Translation of mempool_init.  The outcome of the underlying malloc call
is passed in as m: some base is a successful reservation at address base,
none is an allocation failure.  The source only assigns pool, top and
available; head, tail and max_free keep their previous values. -/
def mempool_init (s : Manager) (m : Option Nat) (size : Nat) : Bool × Manager :=
  if s.pool.isSome ∨ size = 0 then (false, s)
  else
    match m with
    | none => (false, s)
    | some base =>
        (true, { s with pool := some base, top := base, available := size })

/-- Translation of mempool_free: release the arena and reset every manager
field to its initial value. -/
def mempool_free (s : Manager) : Manager :=
  if s.pool = none then s else Manager.initial

/-- Translation of insert_node_at_tail.  The new header has already been
written at addr by pmalloc; this links it at the tail of the chain.  When
head is non-null but tail is null the C code would dereference NULL, a
state that is unreachable; the model leaves the state unchanged there. -/
def insert_node_at_tail (s : Manager) (addr : Nat) (blk : Block) : Manager :=
  match s.head with
  | none =>
      { s with head := some addr, tail := some addr,
               blocks := update s.blocks addr
                 { blk with prev := none, next := none } }
  | some _ =>
      match s.tail with
      | none => s
      | some taddr =>
          let bs1 := update s.blocks addr { blk with prev := some taddr, next := none }
          let bs2 := match lookup bs1 taddr with
            | some tb => update bs1 taddr { tb with next := some addr }
            | none => bs1
          { s with blocks := bs2, tail := some addr }

/-- Translation of pmalloc.  The reuse branch of the source returns NULL
whenever size is at most max_free.  The bump branch guard adds ALIGN = 7
and SIZEOF_BLOCK = 32 to size in size_t arithmetic, which wraps modulo
2 to the 64; on success the top pointer is aligned up, the consumed gap is
recorded, the header is written at the aligned top and linked at the tail,
and available is decremented with wrapping size_t subtraction. -/
def pmalloc (s : Manager) (size : Nat) : Option Nat × Manager :=
  if size = 0 then (none, s)
  else if size ≤ s.max_free then (none, s)
  else if (size + 7 + 32) % U64 ≤ s.available then
    let newTop := alignUp8 s.top
    let delta := newTop - s.top
    let blk : Block := { prev := none, next := none, size := size,
                         available := false, top_gap := delta }
    let s1 := insert_node_at_tail s newTop blk
    let s2 := { s1 with available := subU64 s1.available (32 + size + delta),
                        top := newTop + (32 + size) }
    (some (newTop + 32), s2)
  else (none, s)

/-- Translation of pcalloc: the element count and element size are
multiplied in size_t arithmetic, with no overflow check (the source carries
a todo comment admitting the missing check), and the product is passed to
pmalloc.  The memset of the payload is invisible in this model because
payload bytes are not represented. -/
def pcalloc (s : Manager) (n size : Nat) : Option Nat × Manager :=
  pmalloc s ((n * size) % U64)

/-- Translation of the forward-merge body of pfree (the forward_merge
label).  The block at baddr absorbs its chain successor: the successor
size, its top gap and its 32-byte header are added to the block size.  If
the successor has a successor d, the chain is spliced around it and the
top gap of d is swallowed and zeroed; otherwise the block becomes the last
chain node, the final gap is inferred from alignment, and the manager top
is advanced past it.  The absorbed header is then cleared
(MEMPOOL_DEBUG).  Dereferences that would be undefined in C (a missing
successor) leave the state unchanged. -/
def forward_merge (s : Manager) (baddr : Nat) : Manager :=
  match lookup s.blocks baddr with
  | none => s
  | some b =>
    match b.next with
    | none => s
    | some naddr =>
      match lookup s.blocks naddr with
      | none => s
      | some nb =>
        let size1 := b.size + nb.size + nb.top_gap + 32
        match nb.next with
        | some daddr =>
            match lookup s.blocks daddr with
            | some d =>
                let bs1 := update s.blocks baddr
                  { b with size := size1 + d.top_gap, next := some daddr }
                let bs2 := update bs1 daddr
                  { d with prev := some baddr, top_gap := 0 }
                { s with blocks := clearBlock bs2 naddr }
            | none =>
                let bs1 := update s.blocks baddr
                  { b with size := size1, next := some daddr }
                { s with blocks := clearBlock bs1 naddr }
        | none =>
            let gap := 8 - size1 % 8
            let bs1 := update s.blocks baddr
              { b with size := size1 + gap, next := none }
            { s with blocks := clearBlock bs1 naddr, top := s.top + gap }

/-- Final statement of pfree: raise max_free to the size of the block that
remains after merging, if larger. -/
def noteMaxFree (s : Manager) (faddr : Nat) : Manager :=
  match lookup s.blocks faddr with
  | some fb => if s.max_free < fb.size then { s with max_free := fb.size } else s
  | none => s

/-- Backward-merge dispatch of pfree: if the chain predecessor exists and
is available, the goto reduces the operation to a forward merge on the
predecessor; in every case max_free is then raised to the size of the
block that survives (the predecessor if it absorbed us, the freed block
itself otherwise). -/
def pfree_backward (s2 : Manager) (baddr : Nat) (bprev : Option Nat) : Manager :=
  match bprev with
  | some paddr =>
      match lookup s2.blocks paddr with
      | some pb =>
          if pb.available then noteMaxFree (forward_merge s2 paddr) paddr
          else noteMaxFree s2 baddr
      | none => noteMaxFree s2 baddr
  | none => noteMaxFree s2 baddr

/-- Translation of pfree.  A null pointer is a no-op.  The owning header
sits 32 bytes below the payload pointer.  The block is marked available,
then merged with its chain successor when that is available, then the
backward merge with an available predecessor is dispatched. -/
def pfree (s : Manager) (p : Nat) : Manager :=
  if p = 0 then s
  else
    let baddr := p - 32
    match lookup s.blocks baddr with
    | none => s
    | some blk =>
      let s1 := { s with blocks := update s.blocks baddr { blk with available := true } }
      let fwd : Bool := match blk.next with
        | some naddr =>
            match lookup s1.blocks naddr with
            | some nb => nb.available
            | none => false
        | none => false
      let s2 := if fwd then forward_merge s1 baddr else s1
      pfree_backward s2 baddr blk.prev

/-- The public operations reachability ranges over. -/
inductive Op where
  | init (m : Option Nat) (size : Nat)
  | malloc (size : Nat)
  | calloc (n size : Nat)
  | free (p : Nat)
  | teardown
deriving Repr, DecidableEq

/-- State transition of one public call. -/
def applyOp (s : Manager) : Op → Manager
  | .init m n => (mempool_init s m n).2
  | .malloc n => (pmalloc s n).2
  | .calloc n es => (pcalloc s n es).2
  | .free p => pfree s p
  | .teardown => mempool_free s

/-- Contract-respecting calls.  Allocation and free require an active pool
(operating outside the init window is declared undefined by the API
contract).  Allocation sizes whose guard arithmetic would overflow size_t
are excluded: executing those calls in C overflows the pointer arithmetic
on top, which is undefined behavior.  A free call needs a live pointer:
a header 32 bytes below it that is currently not available. -/
def legal (s : Manager) : Op → Prop
  | .init _ n => n < U64
  | .malloc n => s.pool.isSome = true ∧ n + 39 < U64
  | .calloc n es => s.pool.isSome = true ∧ (n * es) % U64 + 39 < U64
  | .free p => p = 0 ∨ (s.pool.isSome = true ∧ 32 ≤ p ∧
      ∃ b, lookup s.blocks (p - 32) = some b ∧ b.available = false)
  | .teardown => True

instance (s : Manager) (op : Op) : Decidable (legal s op) := by
  cases op <;> simp only [legal] <;> infer_instance

/-- States reachable from the initial manager by contract-respecting
public calls. -/
inductive Reachable : Manager → Prop where
  | initial : Reachable Manager.initial
  | step {s : Manager} {op : Op} : Reachable s → legal s op → Reachable (applyOp s op)

/-- Running a call sequence from a state. -/
def exec (s : Manager) : List Op → Manager
  | [] => s
  | op :: t => exec (applyOp s op) t

/-! ### Arithmetic helper lemmas -/

theorem alignUp8_le (a : Nat) : alignUp8 a ≤ a + 7 :=
  Nat.div_mul_le_self (a + 7) 8

theorem le_alignUp8 (a : Nat) : a ≤ alignUp8 a := by
  have h := Nat.mod_add_div (a + 7) 8
  have hm : (a + 7) % 8 < 8 := Nat.mod_lt _ (by norm_num)
  unfold alignUp8
  omega

theorem alignUp8_mod (a : Nat) : alignUp8 a % 8 = 0 := Nat.mul_mod_left _ 8

theorem U64_pos : 0 < U64 := by norm_num [U64]

theorem subU64_eq_sub {a b : Nat} (h1 : b ≤ a) (h2 : a < U64) : subU64 a b = a - b := by
  have hb : b % U64 = b := Nat.mod_eq_of_lt (lt_of_le_of_lt h1 h2)
  have he : a + (U64 - b % U64) = U64 + (a - b) := by omega
  rw [subU64, he, Nat.add_mod_left]
  exact Nat.mod_eq_of_lt (by omega)

theorem subU64_lt (a b : Nat) : subU64 a b < U64 := Nat.mod_lt _ U64_pos

/-! ### Map and state helper lemmas -/

theorem lookup_update (bs : List (Nat × Block)) (a : Nat) (b : Block) (x : Nat) :
    lookup (update bs a b) x = if a = x then some b else lookup bs x := by
  induction bs with
  | nil => simp [update, lookup]
  | cons hd t ih =>
      obtain ⟨k, b0⟩ := hd
      by_cases hk : k = a
      · subst hk
        by_cases hx : k = x
        · subst hx
          simp [update, lookup]
        · simp [update, lookup, hx]
      · by_cases hx : k = x
        · subst hx
          simp only [update, if_neg hk, lookup, if_pos rfl]
          rw [if_neg (fun h : a = k => hk h.symm)]
          simp [lookup]
        · simp [update, lookup, hk, hx, ih]

/-- The all-zero header left behind by the MEMPOOL_DEBUG clearing. -/
def clearedBlock : Block :=
  { prev := none, next := none, size := 0, available := false, top_gap := 0 }

theorem clearBlock_of_some {bs : List (Nat × Block)} {a : Nat} {b : Block}
    (h : lookup bs a = some b) : clearBlock bs a = update bs a clearedBlock := by
  simp [clearBlock, h, clearedBlock]

theorem clearBlock_of_none {bs : List (Nat × Block)} {a : Nat}
    (h : lookup bs a = none) : clearBlock bs a = bs := by
  simp [clearBlock, h]

theorem insert_node_at_tail_fields (s : Manager) (a : Nat) (b : Block) :
    (insert_node_at_tail s a b).available = s.available ∧
    (insert_node_at_tail s a b).max_free = s.max_free ∧
    (insert_node_at_tail s a b).pool = s.pool ∧
    (insert_node_at_tail s a b).top = s.top := by
  unfold insert_node_at_tail
  repeat' split
  all_goals exact ⟨rfl, rfl, rfl, rfl⟩

theorem forward_merge_fields (s : Manager) (a : Nat) :
    (forward_merge s a).available = s.available ∧
    (forward_merge s a).max_free = s.max_free ∧
    (forward_merge s a).pool = s.pool ∧
    (forward_merge s a).head = s.head ∧
    (forward_merge s a).tail = s.tail ∧
    s.top ≤ (forward_merge s a).top := by
  unfold forward_merge
  repeat' split
  all_goals exact ⟨rfl, rfl, rfl, rfl, rfl, by simp⟩

theorem noteMaxFree_fields (s : Manager) (a : Nat) :
    (noteMaxFree s a).available = s.available ∧
    (noteMaxFree s a).pool = s.pool ∧
    (noteMaxFree s a).head = s.head ∧
    (noteMaxFree s a).tail = s.tail ∧
    (noteMaxFree s a).top = s.top ∧
    (noteMaxFree s a).blocks = s.blocks ∧
    s.max_free ≤ (noteMaxFree s a).max_free := by
  unfold noteMaxFree
  split
  · split
    · next h => exact ⟨rfl, rfl, rfl, rfl, rfl, rfl, Nat.le_of_lt h⟩
    · exact ⟨rfl, rfl, rfl, rfl, rfl, rfl, Nat.le_refl _⟩
  · exact ⟨rfl, rfl, rfl, rfl, rfl, rfl, Nat.le_refl _⟩

theorem pfree_available (s : Manager) (p : Nat) :
    (pfree s p).available = s.available := by
  simp only [pfree, pfree_backward]
  split
  · rfl
  · split
    · rfl
    · repeat' split
      all_goals rw [(noteMaxFree_fields _ _).1]
      all_goals repeat rw [(forward_merge_fields _ _).1]

theorem pmalloc_available_le (s : Manager) (n : Nat) (hw : n + 39 < U64) :
    ((pmalloc s n).2).available ≤ s.available := by
  unfold pmalloc
  split
  · exact le_refl _
  · split
    · exact le_refl _
    · split
      · next hg =>
          simp only
          rw [(insert_node_at_tail_fields _ _ _).1]
          have hmod : (n + 7 + 32) % U64 = n + 39 := by
            rw [Nat.mod_eq_of_lt (by omega)]
          rw [hmod] at hg
          have hdelta : alignUp8 s.top - s.top ≤ 7 := by
            have h1 := alignUp8_le s.top
            have h2 := le_alignUp8 s.top
            omega
          by_cases hA : s.available < U64
          · rw [subU64_eq_sub (by omega) hA]
            omega
          · exact le_of_lt (lt_of_lt_of_le (subU64_lt _ _) (by omega))
      · exact le_refl _

/-- Full shape of a successful bump allocation as an explicit record. -/
theorem pmalloc_eq_of_fits (s : Manager) (size : Nat)
    (h0 : ¬ size = 0) (h1 : ¬ size ≤ s.max_free)
    (h2 : (size + 7 + 32) % U64 ≤ s.available) :
    pmalloc s size =
      (some (alignUp8 s.top + 32),
       { insert_node_at_tail s (alignUp8 s.top)
           { prev := none, next := none, size := size, available := false,
             top_gap := alignUp8 s.top - s.top } with
         available := subU64 (insert_node_at_tail s (alignUp8 s.top)
             { prev := none, next := none, size := size, available := false,
               top_gap := alignUp8 s.top - s.top }).available
           (32 + size + (alignUp8 s.top - s.top)),
         top := alignUp8 s.top + (32 + size) }) := by
  unfold pmalloc
  rw [if_neg h0, if_neg h1, if_pos h2]

/-- After a successful insertion at the bump frontier, the inserted header
keeps its size, availability flag and top gap; only its chain links are
filled in. -/
theorem lookup_insert_self (s : Manager) (a : Nat) (blk : Block)
    (ht : s.tail = none → s.head = none) :
    ∃ pv nx, lookup (insert_node_at_tail s a blk).blocks a =
      some { blk with prev := pv, next := nx } := by
  unfold insert_node_at_tail
  cases hh : s.head with
  | none =>
      exact ⟨none, none, by rw [lookup_update, if_pos rfl]⟩
  | some hd =>
      cases htl : s.tail with
      | none => rw [ht htl] at hh; cases hh
      | some taddr =>
          dsimp only
          by_cases he : taddr = a
          · subst he
            split
            · next tb hlk =>
                rw [lookup_update, if_pos rfl] at hlk
                cases hlk
                exact ⟨some taddr, some taddr, by rw [lookup_update, if_pos rfl]⟩
            · next hlk =>
                rw [lookup_update, if_pos rfl] at hlk
                cases hlk
          · split
            · next tb hlk =>
                exact ⟨some taddr, none,
                  by rw [lookup_update, if_neg he, lookup_update, if_pos rfl]⟩
            · exact ⟨some taddr, none, by rw [lookup_update, if_pos rfl]⟩

/-- The state reached by a fresh init of a 128-byte pool with the arena
buffer reserved at address 0. -/
def initState128 : Manager := (mempool_init Manager.initial (some 0) 128).2

/-- The section 8 scenario of the spec: init 128, two 16-byte allocations,
free the first.  The claim says the next allocate(16) must reuse the freed
block. -/
def scenarioC1 : Manager :=
  pfree (pmalloc (pmalloc initState128 16).2 16).2 32

/-- C1: the reuse path of pmalloc is not implemented.  In the spec scenario
the pool holds a free block of size 16 at the head of the chain and
max_free is 16, yet pmalloc(16) takes the branch that returns NULL as soon
as size is at most max_free, instead of scanning the chain first-fit or
falling through to the bump path.  This theorem evaluates the code at the
failing input. -/
theorem claim_C1 :
    (pmalloc scenarioC1 16).1 = none ∧
    lookup scenarioC1.blocks 0 =
      some { prev := none, next := some 48, size := 16,
             available := true, top_gap := 0 } ∧
    16 ≤ scenarioC1.max_free := by decide

/-- C2 counterexample: pmalloc(1) on a fresh 128-byte pool stores size 1,
not the 8-byte rounding, and decrements available by 32 + 1 rather than
32 + 8.  The claim that the requested size is rounded up to a multiple of
8 before use is false on the code. -/
theorem claim_C2_counterexample :
    (pmalloc initState128 1).1 = some 32 ∧
    lookup ((pmalloc initState128 1).2).blocks 0 =
      some { prev := none, next := none, size := 1,
             available := false, top_gap := 0 } ∧
    ((pmalloc initState128 1).2).available = 95 ∧
    ¬ (1 % 8 = 0) ∧ ¬ (95 = 128 - (32 + 8)) := by decide

/-- C2 amended: no rounding happens.  A successful bump allocation stores
the raw requested size in the size field, and the capacity arithmetic uses
the raw size plus the actual alignment delta of the top pointer. -/
theorem claim_C2 (s : Manager) (size : Nat)
    (h0 : 0 < size) (h1 : s.max_free < size)
    (h2 : size + 39 ≤ s.available) (hA : s.available < U64)
    (ht : s.tail = none → s.head = none) :
    (∃ b, lookup ((pmalloc s size).2).blocks (alignUp8 s.top) = some b ∧
      b.size = size ∧ b.available = false ∧
      b.top_gap = alignUp8 s.top - s.top) ∧
    ((pmalloc s size).2).available =
      s.available - (32 + size + (alignUp8 s.top - s.top)) := by
  have hg : (size + 7 + 32) % U64 ≤ s.available := by
    rw [Nat.mod_eq_of_lt (by omega)]
    omega
  have hdelta : alignUp8 s.top - s.top ≤ 7 := by
    have ha := alignUp8_le s.top
    have hb := le_alignUp8 s.top
    omega
  rw [pmalloc_eq_of_fits s size (by omega) (by omega) hg]
  constructor
  · obtain ⟨pv, nx, hlk⟩ := lookup_insert_self s (alignUp8 s.top)
      { prev := none, next := none, size := size, available := false,
        top_gap := alignUp8 s.top - s.top } ht
    exact ⟨_, hlk, rfl, rfl, rfl⟩
  · show subU64 (insert_node_at_tail s (alignUp8 s.top) _).available _ = _
    rw [(insert_node_at_tail_fields _ _ _).1]
    exact subU64_eq_sub (by omega) hA

/-- C2 witness: the amended statement evaluated on pmalloc(1) from a fresh
128-byte pool. -/
theorem claim_C2_witness :
    (∃ b, lookup ((pmalloc initState128 1).2).blocks (alignUp8 initState128.top) = some b ∧
      b.size = 1 ∧ b.available = false ∧
      b.top_gap = alignUp8 initState128.top - initState128.top) ∧
    ((pmalloc initState128 1).2).available =
      initState128.available - (32 + 1 + (alignUp8 initState128.top - initState128.top)) :=
  claim_C2 initState128 1 (by decide) (by decide) (by decide) (by decide) (by decide)

/-- C3: pcalloc multiplies count and element size in wrapping size_t
arithmetic with no overflow check (the source carries a todo comment
admitting the missing check).  With n one more than 2 to the 63 and
element size 2 the true product exceeds the size_t range, the wrapped
product is 2, and the call returns a pointer instead of failing as the
claim requires. -/
theorem claim_C3 :
    (pcalloc initState128 (2 ^ 63 + 1) 2).1 = some 32 ∧
    U64 < (2 ^ 63 + 1) * 2 ∧
    ((2 ^ 63 + 1) * 2) % U64 = 2 := by decide

/-- C8: allocate(0) fails and returns the state unchanged, and
zeroed_allocate(0, n) fails for every n and every state. -/
theorem claim_C8 :
    (∀ s : Manager, pmalloc s 0 = (none, s)) ∧
    (∀ (s : Manager) (n : Nat), pcalloc s 0 n = (none, s)) := by
  constructor
  · intro s
    simp [pmalloc]
  · intro s n
    simp [pcalloc, pmalloc]

/-- C9 amended: for sizes whose guard arithmetic does not overflow size_t,
the bump path succeeds exactly when size + 32 + 7 fits in available; the
guard always charges the full 7 padding bytes, so the call fails even when
the top pointer is already aligned and size + 32 would fit.  For sizes at
least 2 to the 64 minus 39 the guard wraps and can pass spuriously, see
the counterexample. -/
theorem claim_C9 (s : Manager) (size : Nat) (h0 : 0 < size)
    (h1 : s.max_free < size) (hw : size + 39 < U64) :
    ((pmalloc s size).1.isSome ↔ size + 32 + 7 ≤ s.available) ∧
    (s.top % 8 = 0 → size + 32 ≤ s.available → s.available < size + 32 + 7 →
      (pmalloc s size).1 = none) := by
  have hmod : (size + 7 + 32) % U64 = size + 39 := Nat.mod_eq_of_lt (by omega)
  unfold pmalloc
  rw [if_neg (by omega), if_neg (by omega)]
  constructor
  · by_cases hg : (size + 7 + 32) % U64 ≤ s.available
    · rw [if_pos hg]
      rw [hmod] at hg
      exact iff_of_true rfl (by omega)
    · rw [if_neg hg]
      rw [hmod] at hg
      exact iff_of_false (by simp) (by omega)
  · intro _ _ hlt
    rw [if_neg (by rw [hmod]; omega)]

/-- C9 counterexample: a request of 2 to the 64 minus 8 bytes passes the
wrapped guard on a fresh 128-byte pool and returns a pointer, although
size + 32 + 7 vastly exceeds available. -/
theorem claim_C9_counterexample :
    (pmalloc initState128 (U64 - 8)).1 = some 32 ∧
    ¬ ((U64 - 8) + 32 + 7 ≤ initState128.available) := by decide

/-- C9 witness: on a fresh 128-byte pool a request of 90 bytes needs
90 + 39 = 129 bytes under the pessimistic guard and fails, although the
top pointer is aligned and 90 + 32 = 122 bytes would physically fit. -/
theorem claim_C9_witness :
    ((pmalloc initState128 90).1.isSome ↔ (90 : Nat) + 32 + 7 ≤ initState128.available) ∧
    (pmalloc initState128 90).1 = none := by
  have h := claim_C9 initState128 90 (by decide) (by decide) (by decide)
  exact ⟨h.1, h.2 (by decide) (by decide) (by decide)⟩

/-- C10 amended: pfree never modifies the available counter, and pmalloc
and pcalloc never increase it for requests whose guard arithmetic does not
overflow size_t.  For a request of 2 to the 64 minus 39 bytes the wrapped
subtraction increases available, see the counterexample. -/
theorem claim_C10 :
    (∀ (s : Manager) (p : Nat), (pfree s p).available = s.available) ∧
    (∀ (s : Manager) (n : Nat), n + 39 < U64 →
      ((pmalloc s n).2).available ≤ s.available) ∧
    (∀ (s : Manager) (n m : Nat), (n * m) % U64 + 39 < U64 →
      ((pcalloc s n m).2).available ≤ s.available) := by
  refine ⟨pfree_available, pmalloc_available_le, ?_⟩
  intro s n m h
  exact pmalloc_available_le s _ h

/-- C10 counterexample: freeing never changes available, but allocation
can increase it through wrapping subtraction, so available is not
non-increasing between init and teardown as claimed.  On a fresh
128-byte pool a request of 2 to the 64 minus 39 bytes passes the wrapped
guard and raises available from 128 to 135. -/
theorem claim_C10_counterexample :
    initState128.available < ((pmalloc initState128 (U64 - 39)).2).available := by decide

/-- C10 witness: the amended statement evaluated on a fresh 128-byte pool
for a null free, a 16-byte allocation and a 4 by 4 zeroed allocation. -/
theorem claim_C10_witness :
    (pfree initState128 0).available = initState128.available ∧
    ((pmalloc initState128 16).2).available ≤ initState128.available ∧
    ((pcalloc initState128 4 4).2).available ≤ initState128.available :=
  ⟨claim_C10.1 initState128 0,
   claim_C10.2.1 initState128 16 (by decide),
   claim_C10.2.2 initState128 4 4 (by decide)⟩

/-! ### Reduction lemmas for the free engine -/

theorem noteMaxFree_spec (s : Manager) (f : Nat) (fb : Block)
    (h : lookup s.blocks f = some fb) :
    (noteMaxFree s f).blocks = s.blocks ∧ fb.size ≤ (noteMaxFree s f).max_free := by
  unfold noteMaxFree
  rw [h]
  dsimp only
  by_cases hlt : s.max_free < fb.size
  · rw [if_pos hlt]
    exact ⟨rfl, Nat.le_refl _⟩
  · rw [if_neg hlt]
    exact ⟨rfl, by omega⟩

theorem forward_merge_eq_splice (s : Manager) (t n da : Nat) (tb nbb dblk : Block)
    (h1 : lookup s.blocks t = some tb) (h2 : tb.next = some n)
    (h3 : lookup s.blocks n = some nbb) (h4 : nbb.next = some da)
    (h5 : lookup s.blocks da = some dblk)
    (hnt : ¬ n = t) (hdn : ¬ da = n) :
    forward_merge s t =
      { s with
        blocks := update (update (update s.blocks t
                      { tb with
                        size := tb.size + nbb.size + nbb.top_gap + 32 + dblk.top_gap,
                        next := some da })
                    da { dblk with prev := some t, top_gap := 0 })
                    n clearedBlock } := by
  unfold forward_merge
  rw [h1]
  dsimp only
  rw [h2]
  dsimp only
  rw [h3]
  dsimp only
  rw [h4]
  dsimp only
  rw [h5]
  dsimp only
  rw [clearBlock_of_some (show lookup
    (update (update s.blocks t
        { tb with size := tb.size + nbb.size + nbb.top_gap + 32 + dblk.top_gap,
                  next := some da })
      da { dblk with prev := some t, top_gap := 0 }) n = some nbb by
    rw [lookup_update, if_neg hdn, lookup_update, if_neg (fun h => hnt h.symm)]
    exact h3)]

theorem forward_merge_eq_splice_noD (s : Manager) (t n da : Nat) (tb nbb : Block)
    (h1 : lookup s.blocks t = some tb) (h2 : tb.next = some n)
    (h3 : lookup s.blocks n = some nbb) (h4 : nbb.next = some da)
    (h5 : lookup s.blocks da = none)
    (hnt : ¬ n = t) :
    forward_merge s t =
      { s with
        blocks := update (update s.blocks t
                      { tb with
                        size := tb.size + nbb.size + nbb.top_gap + 32,
                        next := some da })
                    n clearedBlock } := by
  unfold forward_merge
  rw [h1]
  dsimp only
  rw [h2]
  dsimp only
  rw [h3]
  dsimp only
  rw [h4]
  dsimp only
  rw [h5]
  dsimp only
  rw [clearBlock_of_some (show lookup
    (update s.blocks t
        { tb with size := tb.size + nbb.size + nbb.top_gap + 32,
                  next := some da }) n = some nbb by
    rw [lookup_update, if_neg (fun h => hnt h.symm)]
    exact h3)]

theorem forward_merge_eq_last (s : Manager) (t n : Nat) (tb nbb : Block)
    (h1 : lookup s.blocks t = some tb) (h2 : tb.next = some n)
    (h3 : lookup s.blocks n = some nbb) (h4 : nbb.next = none)
    (hnt : ¬ n = t) :
    forward_merge s t =
      { s with
        blocks := update (update s.blocks t
                      { tb with
                        size := tb.size + nbb.size + nbb.top_gap + 32 +
                          (8 - (tb.size + nbb.size + nbb.top_gap + 32) % 8),
                        next := none })
                    n clearedBlock,
        top := s.top + (8 - (tb.size + nbb.size + nbb.top_gap + 32) % 8) } := by
  unfold forward_merge
  rw [h1]
  dsimp only
  rw [h2]
  dsimp only
  rw [h3]
  dsimp only
  rw [h4]
  dsimp only
  rw [clearBlock_of_some (show lookup
    (update s.blocks t
        { tb with
          size := tb.size + nbb.size + nbb.top_gap + 32 +
                    (8 - (tb.size + nbb.size + nbb.top_gap + 32) % 8),
          next := none }) n = some nbb by
    rw [lookup_update, if_neg (fun h => hnt h.symm)]
    exact h3)]

/-- C4: freeing a block whose chain predecessor and successor are both free
first merges forward into the successor and then reduces the backward merge
to a forward merge on the predecessor, leaving one single free block that
spans all three regions plus their two absorbed headers, with the two
absorbed headers cleared, the chain spliced past them, and max_free raised
to at least the merged size. -/
theorem claim_C4 (s : Manager) (pa baddr na : Nat) (a b c : Block)
    (hb : lookup s.blocks baddr = some b) (hbav : b.available = false)
    (hbp : b.prev = some pa) (hbn : b.next = some na)
    (ha : lookup s.blocks pa = some a) (haav : a.available = true)
    (han : a.next = some baddr)
    (hc : lookup s.blocks na = some c) (hcav : c.available = true)
    (hpb : ¬ pa = baddr) (hpn : ¬ pa = na) (hbna : ¬ baddr = na)
    (hd : ∀ da, c.next = some da →
      (∃ dblk, lookup s.blocks da = some dblk) ∧ ¬ da = pa ∧ ¬ da = baddr ∧ ¬ da = na) :
    ∃ a2, lookup (pfree s (baddr + 32)).blocks pa = some a2 ∧
      a2.available = true ∧ a2.next = c.next ∧
      a.size + b.size + b.top_gap + c.size + c.top_gap + 64 ≤ a2.size ∧
      lookup (pfree s (baddr + 32)).blocks baddr = some clearedBlock ∧
      lookup (pfree s (baddr + 32)).blocks na = some clearedBlock ∧
      a2.size ≤ (pfree s (baddr + 32)).max_free := by
  have hp0 : ¬ (baddr + 32 = 0) := by omega
  have hsub : baddr + 32 - 32 = baddr := by omega
  have hnab : ¬ na = baddr := fun h => hbna h.symm
  have hbp2 : ¬ baddr = pa := fun h => hpb h.symm
  have hnp : ¬ na = pa := fun h => hpn h.symm
  obtain ⟨bp, bn, bsz, bav, bg⟩ := b
  obtain ⟨ap, an, asz, aav, ag⟩ := a
  obtain ⟨cp, cn, csz, cav, cg⟩ := c
  dsimp only at hbp hbn hbav haav han hcav hd ⊢
  subst hbp hbn hbav haav han hcav
  have hs1b : lookup (update s.blocks baddr
      { prev := some pa, next := some na, size := bsz, available := true, top_gap := bg }) baddr = some { prev := some pa, next := some na, size := bsz, available := true, top_gap := bg } := by
    rw [lookup_update, if_pos rfl]
  have hs1pa : lookup (update s.blocks baddr
      { prev := some pa, next := some na, size := bsz, available := true, top_gap := bg }) pa = some { prev := ap, next := some baddr, size := asz, available := true, top_gap := ag } := by
    rw [lookup_update, if_neg hbp2]
    exact ha
  cases cn with
  | none =>
      have hs1na : lookup (update s.blocks baddr { prev := some pa, next := some na, size := bsz, available := true, top_gap := bg }) na =
          some { prev := cp, next := none, size := csz, available := true, top_gap := cg } := by
        rw [lookup_update, if_neg hbna]
        exact hc
      have hFM1 := forward_merge_eq_last
        { s with blocks := update s.blocks baddr { prev := some pa, next := some na, size := bsz, available := true, top_gap := bg } }
        baddr na { prev := some pa, next := some na, size := bsz, available := true, top_gap := bg } { prev := cp, next := none, size := csz, available := true, top_gap := cg } hs1b rfl hs1na rfl hnab
      have hs2pa : lookup (forward_merge
          { s with blocks := update s.blocks baddr { prev := some pa, next := some na, size := bsz, available := true, top_gap := bg } }
          baddr).blocks pa = some { prev := ap, next := some baddr, size := asz, available := true, top_gap := ag } := by
        rw [hFM1]
        dsimp only
        rw [lookup_update, if_neg hnp, lookup_update, if_neg hbp2]
        exact hs1pa
      have hs2b : lookup (forward_merge
          { s with blocks := update s.blocks baddr { prev := some pa, next := some na, size := bsz, available := true, top_gap := bg } }
          baddr).blocks baddr = some { prev := some pa, next := none, size := bsz + csz + cg + 32 + (8 - (bsz + csz + cg + 32) % 8), available := true, top_gap := bg } := by
        rw [hFM1]
        dsimp only
        rw [lookup_update, if_neg hnab, lookup_update, if_pos rfl]
      have hFM2 := forward_merge_eq_last
        (forward_merge
          { s with blocks := update s.blocks baddr { prev := some pa, next := some na, size := bsz, available := true, top_gap := bg } } baddr)
        pa baddr { prev := ap, next := some baddr, size := asz, available := true, top_gap := ag } { prev := some pa, next := none, size := bsz + csz + cg + 32 + (8 - (bsz + csz + cg + 32) % 8), available := true, top_gap := bg } hs2pa rfl hs2b rfl hbp2
      have hred : pfree s (baddr + 32) =
          noteMaxFree (forward_merge (forward_merge
            { s with blocks := update s.blocks baddr { prev := some pa, next := some na, size := bsz, available := true, top_gap := bg } }
            baddr) pa) pa := by
        simp only [pfree, pfree_backward]
        rw [hsub, if_neg hp0, hb]
        dsimp only
        rw [hs1na]
        dsimp only
        rw [if_pos rfl]
        rw [hs2pa]
        dsimp only
        rw [if_pos rfl]
      have hl_pa : lookup (update (update (forward_merge
          { s with blocks := update s.blocks baddr { prev := some pa, next := some na, size := bsz, available := true, top_gap := bg } }
          baddr).blocks pa { prev := ap, next := none, size := asz + (bsz + csz + cg + 32 + (8 - (bsz + csz + cg + 32) % 8)) + bg + 32 + (8 - (asz + (bsz + csz + cg + 32 + (8 - (bsz + csz + cg + 32) % 8)) + bg + 32) % 8), available := true, top_gap := ag })
          baddr clearedBlock) pa = some { prev := ap, next := none, size := asz + (bsz + csz + cg + 32 + (8 - (bsz + csz + cg + 32) % 8)) + bg + 32 + (8 - (asz + (bsz + csz + cg + 32 + (8 - (bsz + csz + cg + 32) % 8)) + bg + 32) % 8), available := true, top_gap := ag } := by
        rw [lookup_update, if_neg hbp2, lookup_update, if_pos rfl]
      rw [hFM2] at hred
      rw [hred]
      simp only [noteMaxFree]
      rw [hl_pa]
      dsimp only
      split
      · next hmf =>
          refine ⟨{ prev := ap, next := none, size := asz + (bsz + csz + cg + 32 + (8 - (bsz + csz + cg + 32) % 8)) + bg + 32 + (8 - (asz + (bsz + csz + cg + 32 + (8 - (bsz + csz + cg + 32) % 8)) + bg + 32) % 8), available := true, top_gap := ag }, ?_, ?_, ?_, ?_, ?_, ?_, ?_⟩
          · exact hl_pa
          · rfl
          · rfl
          · dsimp only
            omega
          · rw [lookup_update, if_pos rfl]
          · rw [lookup_update, if_neg hbna, lookup_update, if_neg hpn]
            rw [hFM1]
            dsimp only
            rw [lookup_update, if_pos rfl]
          · exact Nat.le_refl _
      · next hmf =>
          refine ⟨{ prev := ap, next := none, size := asz + (bsz + csz + cg + 32 + (8 - (bsz + csz + cg + 32) % 8)) + bg + 32 + (8 - (asz + (bsz + csz + cg + 32 + (8 - (bsz + csz + cg + 32) % 8)) + bg + 32) % 8), available := true, top_gap := ag }, ?_, ?_, ?_, ?_, ?_, ?_, ?_⟩
          · exact hl_pa
          · rfl
          · rfl
          · dsimp only
            omega
          · rw [lookup_update, if_pos rfl]
          · rw [lookup_update, if_neg hbna, lookup_update, if_neg hpn]
            rw [hFM1]
            dsimp only
            rw [lookup_update, if_pos rfl]
          · dsimp only at hmf ⊢
            omega
  | some da =>
      obtain ⟨⟨dblk, hdl⟩, hdp, hdb, hdn⟩ := hd da rfl
      obtain ⟨dp, dn, dsz, dav, dg⟩ := dblk
      have hs1na : lookup (update s.blocks baddr { prev := some pa, next := some na, size := bsz, available := true, top_gap := bg }) na =
          some { prev := cp, next := some da, size := csz, available := true, top_gap := cg } := by
        rw [lookup_update, if_neg hbna]
        exact hc
      have hs1da : lookup (update s.blocks baddr { prev := some pa, next := some na, size := bsz, available := true, top_gap := bg }) da = some { prev := dp, next := dn, size := dsz, available := dav, top_gap := dg } := by
        rw [lookup_update, if_neg (fun h : baddr = da => hdb h.symm)]
        exact hdl
      have hFM1 := forward_merge_eq_splice
        { s with blocks := update s.blocks baddr { prev := some pa, next := some na, size := bsz, available := true, top_gap := bg } }
        baddr na da { prev := some pa, next := some na, size := bsz, available := true, top_gap := bg } { prev := cp, next := some da, size := csz, available := true, top_gap := cg } { prev := dp, next := dn, size := dsz, available := dav, top_gap := dg } hs1b rfl hs1na rfl hs1da hnab hdn
      have hs2pa : lookup (forward_merge
          { s with blocks := update s.blocks baddr { prev := some pa, next := some na, size := bsz, available := true, top_gap := bg } }
          baddr).blocks pa = some { prev := ap, next := some baddr, size := asz, available := true, top_gap := ag } := by
        rw [hFM1]
        dsimp only
        rw [lookup_update, if_neg hnp, lookup_update, if_neg hdp, lookup_update,
          if_neg hbp2]
        exact hs1pa
      have hs2b : lookup (forward_merge
          { s with blocks := update s.blocks baddr { prev := some pa, next := some na, size := bsz, available := true, top_gap := bg } }
          baddr).blocks baddr = some { prev := some pa, next := some da, size := bsz + csz + cg + 32 + dg, available := true, top_gap := bg } := by
        rw [hFM1]
        dsimp only
        rw [lookup_update, if_neg hnab, lookup_update, if_neg hdb, lookup_update,
          if_pos rfl]
      have hs2da : lookup (forward_merge
          { s with blocks := update s.blocks baddr { prev := some pa, next := some na, size := bsz, available := true, top_gap := bg } }
          baddr).blocks da = some { prev := some baddr, next := dn, size := dsz, available := dav, top_gap := 0 } := by
        rw [hFM1]
        dsimp only
        rw [lookup_update, if_neg (fun h : na = da => hdn h.symm), lookup_update,
          if_pos rfl]
      have hFM2 := forward_merge_eq_splice
        (forward_merge
          { s with blocks := update s.blocks baddr { prev := some pa, next := some na, size := bsz, available := true, top_gap := bg } } baddr)
        pa baddr da { prev := ap, next := some baddr, size := asz, available := true, top_gap := ag } { prev := some pa, next := some da, size := bsz + csz + cg + 32 + dg, available := true, top_gap := bg } { prev := some baddr, next := dn, size := dsz, available := dav, top_gap := 0 } hs2pa rfl hs2b rfl hs2da hbp2 hdb
      have hred : pfree s (baddr + 32) =
          noteMaxFree (forward_merge (forward_merge
            { s with blocks := update s.blocks baddr { prev := some pa, next := some na, size := bsz, available := true, top_gap := bg } }
            baddr) pa) pa := by
        simp only [pfree, pfree_backward]
        rw [hsub, if_neg hp0, hb]
        dsimp only
        rw [hs1na]
        dsimp only
        rw [if_pos rfl]
        rw [hs2pa]
        dsimp only
        rw [if_pos rfl]
      have hl_pa : lookup (update (update (update (forward_merge
          { s with blocks := update s.blocks baddr { prev := some pa, next := some na, size := bsz, available := true, top_gap := bg } }
          baddr).blocks pa { prev := ap, next := some da, size := asz + (bsz + csz + cg + 32 + dg) + bg + 32 + 0, available := true, top_gap := ag })
          da { prev := some pa, next := dn, size := dsz, available := dav, top_gap := 0 })
          baddr clearedBlock) pa = some { prev := ap, next := some da, size := asz + (bsz + csz + cg + 32 + dg) + bg + 32 + 0, available := true, top_gap := ag } := by
        rw [lookup_update, if_neg hbp2, lookup_update, if_neg hdp, lookup_update,
          if_pos rfl]
      rw [hFM2] at hred
      rw [hred]
      simp only [noteMaxFree]
      rw [hl_pa]
      dsimp only
      split
      · next hmf =>
          refine ⟨{ prev := ap, next := some da, size := asz + (bsz + csz + cg + 32 + dg) + bg + 32 + 0, available := true, top_gap := ag }, ?_, ?_, ?_, ?_, ?_, ?_, ?_⟩
          · exact hl_pa
          · rfl
          · rfl
          · dsimp only
            omega
          · rw [lookup_update, if_pos rfl]
          · rw [lookup_update, if_neg hbna, lookup_update, if_neg hdn, lookup_update,
              if_neg hpn]
            rw [hFM1]
            dsimp only
            rw [lookup_update, if_pos rfl]
          · exact Nat.le_refl _
      · next hmf =>
          refine ⟨{ prev := ap, next := some da, size := asz + (bsz + csz + cg + 32 + dg) + bg + 32 + 0, available := true, top_gap := ag }, ?_, ?_, ?_, ?_, ?_, ?_, ?_⟩
          · exact hl_pa
          · rfl
          · rfl
          · dsimp only
            omega
          · rw [lookup_update, if_pos rfl]
          · rw [lookup_update, if_neg hbna, lookup_update, if_neg hdn, lookup_update,
              if_neg hpn]
            rw [hFM1]
            dsimp only
            rw [lookup_update, if_pos rfl]
          · dsimp only at hmf ⊢
            omega

/-- A 256-byte pool with four 8-byte blocks where the first and third are
freed; freeing the second then exercises both merges of C4. -/
def scenarioC4 : Manager :=
  pfree (pfree (pmalloc (pmalloc (pmalloc (pmalloc
    (mempool_init Manager.initial (some 0) 256).2 8).2 8).2 8).2 8).2 32) 112

/-- C4 witness: the merge theorem evaluated on the concrete four-block
scenario; the three adjacent regions end as one free block at address 0. -/
theorem claim_C4_witness :
    ∃ a2, lookup (pfree scenarioC4 (40 + 32)).blocks 0 = some a2 ∧
      a2.available = true ∧ a2.next = some 120 ∧
      (8 : Nat) + 8 + 0 + 8 + 0 + 64 ≤ a2.size ∧
      lookup (pfree scenarioC4 (40 + 32)).blocks 40 = some clearedBlock ∧
      lookup (pfree scenarioC4 (40 + 32)).blocks 80 = some clearedBlock ∧
      a2.size ≤ (pfree scenarioC4 (40 + 32)).max_free :=
  claim_C4 scenarioC4 0 40 80
    { prev := none, next := some 40, size := 8, available := true, top_gap := 0 }
    { prev := some 0, next := some 80, size := 8, available := false, top_gap := 0 }
    { prev := some 40, next := some 120, size := 8, available := true, top_gap := 0 }
    (by decide) rfl rfl rfl (by decide) rfl rfl (by decide) rfl
    (by decide) (by decide) (by decide)
    (fun da hda => by
      cases hda
      exact ⟨⟨{ prev := some 80, next := none, size := 8, available := false,
                top_gap := 0 }, by decide⟩, by decide, by decide, by decide⟩)

/-! ### Reachability invariants -/

/-- Every available block has size bounded by max_free (claim C5). -/
def BoundOk (s : Manager) : Prop :=
  ∀ a b, lookup s.blocks a = some b → b.available = true → b.size ≤ s.max_free

/-- Every prev pointer is answered by a next pointer back to the block. -/
def PrevOk (s : Manager) : Prop :=
  ∀ a b, lookup s.blocks a = some b → ∀ pa, b.prev = some pa →
    ∃ pb, lookup s.blocks pa = some pb ∧ pb.next = some a

/-- Chain next pointers strictly ascend in address order. -/
def NextInc (s : Manager) : Prop :=
  ∀ a b, lookup s.blocks a = some b → ∀ na, b.next = some na → a < na

/-- Every header lies strictly below the bump frontier. -/
def KeysBelow (s : Manager) : Prop :=
  ∀ a b, lookup s.blocks a = some b → a < s.top

/-- Every header address is 8-byte aligned (claim C6). -/
def KeysAligned (s : Manager) : Prop :=
  ∀ a b, lookup s.blocks a = some b → a % 8 = 0

/-- The chain endpoints are consistent: head and tail are null together, an
empty chain has no headers, and the tail block is last (its next is null,
possibly after the tail pointer went stale on a merge that cleared it). -/
def TailOk (s : Manager) : Prop :=
  (s.head = none ↔ s.tail = none) ∧ (s.head = none → s.blocks = []) ∧
  (∀ t, s.tail = some t → ∃ tb, lookup s.blocks t = some tb ∧ tb.next = none)

/-- An inactive manager is fully reset. -/
def PoolNone (s : Manager) : Prop := s.pool = none → s = Manager.initial

/-- The inductive invariant of reachable states. -/
def Inv (s : Manager) : Prop :=
  BoundOk s ∧ PrevOk s ∧ NextInc s ∧ KeysBelow s ∧ KeysAligned s ∧ TailOk s ∧
  PoolNone s

theorem inv_initial : Inv Manager.initial := by
  refine ⟨?_, ?_, ?_, ?_, ?_, ⟨?_, ?_, ?_⟩, ?_⟩
  · intro a b hl
    cases hl
  · intro a b hl
    cases hl
  · intro a b hl
    cases hl
  · intro a b hl
    cases hl
  · intro a b hl
    cases hl
  · exact Iff.rfl
  · intro _
    rfl
  · intro t ht
    cases ht
  · intro _
    rfl

theorem inv_mempool_init (s : Manager) (m : Option Nat) (n : Nat) (h : Inv s) :
    Inv ((mempool_init s m n).2) := by
  unfold mempool_init
  split
  · exact h
  · next hg =>
      cases m with
      | none => exact h
      | some base =>
          have hpool : s.pool = none := by
            cases hp : s.pool with
            | none => rfl
            | some q => exact absurd (Or.inl (by rw [hp]; rfl)) hg
          have hs := h.2.2.2.2.2.2 hpool
          subst hs
          refine ⟨?_, ?_, ?_, ?_, ?_, ⟨?_, ?_, ?_⟩, ?_⟩
          · intro a b hl
            cases hl
          · intro a b hl
            cases hl
          · intro a b hl
            cases hl
          · intro a b hl
            cases hl
          · intro a b hl
            cases hl
          · exact Iff.rfl
          · intro _
            rfl
          · intro t ht
            cases ht
          · intro hq
            cases hq

theorem inv_mempool_free (s : Manager) (h : Inv s) : Inv (mempool_free s) := by
  unfold mempool_free
  split
  · exact h
  · exact inv_initial

theorem insert_eq_empty (s : Manager) (addr : Nat) (blk : Block) (hh : s.head = none) :
    insert_node_at_tail s addr blk =
      { s with head := some addr, tail := some addr,
               blocks := update s.blocks addr { blk with prev := none, next := none } } := by
  unfold insert_node_at_tail
  rw [hh]

theorem insert_eq_tail (s : Manager) (addr : Nat) (blk : Block) (hd t : Nat) (tb : Block)
    (hh : s.head = some hd) (htl : s.tail = some t)
    (htb : lookup s.blocks t = some tb) (hne : ¬ addr = t) :
    insert_node_at_tail s addr blk =
      { s with tail := some addr,
               blocks := update (update s.blocks addr
                   { blk with prev := some t, next := none }) t
                 { tb with next := some addr } } := by
  unfold insert_node_at_tail
  rw [hh]
  dsimp only
  rw [htl]
  dsimp only
  rw [show lookup (update s.blocks addr { blk with prev := some t, next := none }) t
      = some tb by rw [lookup_update, if_neg hne]; exact htb]

theorem inv_pmalloc (s : Manager) (n : Nat) (h : Inv s)
    (hpool : s.pool.isSome = true) :
    Inv ((pmalloc s n).2) := by
  obtain ⟨hB, hP, hN, hK, hA, ⟨hT1, hT2, hT3⟩, hPool⟩ := h
  by_cases h0 : n = 0
  · unfold pmalloc
    rw [if_pos h0]
    exact ⟨hB, hP, hN, hK, hA, ⟨hT1, hT2, hT3⟩, hPool⟩
  by_cases h1 : n ≤ s.max_free
  · unfold pmalloc
    rw [if_neg h0, if_pos h1]
    exact ⟨hB, hP, hN, hK, hA, ⟨hT1, hT2, hT3⟩, hPool⟩
  by_cases h2 : (n + 7 + 32) % U64 ≤ s.available
  case neg =>
    unfold pmalloc
    rw [if_neg h0, if_neg h1, if_neg h2]
    exact ⟨hB, hP, hN, hK, hA, ⟨hT1, hT2, hT3⟩, hPool⟩
  case pos =>
  rw [pmalloc_eq_of_fits s n h0 h1 h2]
  dsimp only
  have hfresh : ∀ a ab, lookup s.blocks a = some ab → ¬ alignUp8 s.top = a :=
    fun a ab hl he =>
      absurd (lt_of_lt_of_le (hK a ab hl) (le_alignUp8 s.top)) (by omega)
  cases hh : s.head with
  | none =>
      rw [insert_eq_empty s (alignUp8 s.top) _ hh]
      dsimp only
      have hbe : s.blocks = [] := hT2 hh
      have hchar : ∀ x, lookup (update s.blocks (alignUp8 s.top)
          { prev := none, next := none, size := n, available := false,
            top_gap := alignUp8 s.top - s.top }) x =
          if alignUp8 s.top = x then
            some { prev := none, next := none, size := n, available := false,
                   top_gap := alignUp8 s.top - s.top } else none := by
        intro x
        rw [lookup_update, hbe]
        simp only [lookup]
      refine ⟨?_, ?_, ?_, ?_, ?_, ⟨?_, ?_, ?_⟩, ?_⟩
      · intro x xb hx hav
        rw [hchar] at hx
        split at hx
        · cases hx
          exact Bool.noConfusion hav
        · cases hx
      · intro x xb hx pa hpa
        rw [hchar] at hx
        split at hx
        · cases hx
          exact Option.noConfusion hpa
        · cases hx
      · intro x xb hx na hna
        rw [hchar] at hx
        split at hx
        · cases hx
          exact Option.noConfusion hna
        · cases hx
      · intro x xb hx
        rw [hchar] at hx
        split at hx
        · next he =>
            subst he
            dsimp only
            omega
        · cases hx
      · intro x xb hx
        rw [hchar] at hx
        split at hx
        · next he =>
            subst he
            exact alignUp8_mod s.top
        · cases hx
      · exact ⟨fun hq => Option.noConfusion hq, fun hq => Option.noConfusion hq⟩
      · exact fun hq => Option.noConfusion hq
      · intro t2 ht2
        have ht3 : some (alignUp8 s.top) = some t2 := ht2
        cases ht3
        refine ⟨{ prev := none, next := none, size := n, available := false,
                  top_gap := alignUp8 s.top - s.top }, ?_, rfl⟩
        rw [hchar, if_pos rfl]
      · intro hq
        have hq2 : s.pool = none := hq
        rw [hq2] at hpool
        exact Bool.noConfusion hpool
  | some hd =>
      cases htl : s.tail with
      | none =>
          have := hT1.mpr htl
          rw [hh] at this
          exact Option.noConfusion this
      | some t =>
          obtain ⟨tb, htb, htbn⟩ := hT3 t htl
          have htnt : t < alignUp8 s.top :=
            lt_of_lt_of_le (hK t tb htb) (le_alignUp8 s.top)
          have htne : ¬ alignUp8 s.top = t := fun he => by omega
          rw [insert_eq_tail s (alignUp8 s.top) _ hd t tb hh htl htb htne]
          dsimp only
          have hchar : ∀ x, lookup (update (update s.blocks (alignUp8 s.top)
              { prev := some t, next := none, size := n, available := false,
                top_gap := alignUp8 s.top - s.top }) t
              { tb with next := some (alignUp8 s.top) }) x =
              if t = x then some { tb with next := some (alignUp8 s.top) }
              else if alignUp8 s.top = x then
                some { prev := some t, next := none, size := n, available := false,
                       top_gap := alignUp8 s.top - s.top }
              else lookup s.blocks x := by
            intro x
            rw [lookup_update, lookup_update]
          refine ⟨?_, ?_, ?_, ?_, ?_, ⟨?_, ?_, ?_⟩, ?_⟩
          · intro x xb hx hav
            rw [hchar] at hx
            split at hx
            · next he =>
                cases hx
                subst he
                exact hB t tb htb hav
            · split at hx
              · cases hx
                exact Bool.noConfusion hav
              · exact hB x xb hx hav
          · intro x xb hx pa hpa
            rw [hchar] at hx
            split at hx
            · next he =>
                cases hx
                subst he
                obtain ⟨pb, hpb, hpbn⟩ := hP t tb htb pa hpa
                have hA1 : ¬ t = pa := by
                  intro he2
                  rw [← he2, htb] at hpb
                  cases hpb
                  rw [htbn] at hpbn
                  exact Option.noConfusion hpbn
                refine ⟨pb, ?_, hpbn⟩
                rw [hchar, if_neg hA1, if_neg (hfresh pa pb hpb)]
                exact hpb
            · next he1 =>
                split at hx
                · next he2 =>
                    cases hx
                    cases hpa
                    refine ⟨{ tb with next := some (alignUp8 s.top) }, ?_, ?_⟩
                    · rw [hchar, if_pos rfl]
                    · rw [← he2]
                · next he2 =>
                    obtain ⟨pb, hpb, hpbn⟩ := hP x xb hx pa hpa
                    have hA1 : ¬ t = pa := by
                      intro he3
                      rw [← he3, htb] at hpb
                      cases hpb
                      rw [htbn] at hpbn
                      exact Option.noConfusion hpbn
                    refine ⟨pb, ?_, hpbn⟩
                    rw [hchar, if_neg hA1, if_neg (hfresh pa pb hpb)]
                    exact hpb
          · intro x xb hx na hna
            rw [hchar] at hx
            split at hx
            · next he =>
                cases hx
                cases hna
                omega
            · split at hx
              · cases hx
                exact Option.noConfusion hna
              · exact hN x xb hx na hna
          · intro x xb hx
            rw [hchar] at hx
            dsimp only
            split at hx
            · next he =>
                subst he
                omega
            · split at hx
              · next he =>
                  subst he
                  omega
              · have := hK x xb hx
                have := le_alignUp8 s.top
                omega
          · intro x xb hx
            rw [hchar] at hx
            split at hx
            · next he =>
                subst he
                exact hA t tb htb
            · split at hx
              · next he =>
                  subst he
                  exact alignUp8_mod s.top
              · exact hA x xb hx
          · constructor
            · intro hq
              have hq2 : s.head = none := hq
              rw [hh] at hq2
              exact Option.noConfusion hq2
            · intro hq
              exact Option.noConfusion hq
          · intro hq
            have hq2 : s.head = none := hq
            rw [hh] at hq2
            exact Option.noConfusion hq2
          · intro t2 ht2
            have ht3 : some (alignUp8 s.top) = some t2 := ht2
            cases ht3
            refine ⟨{ prev := some t, next := none, size := n, available := false,
                      top_gap := alignUp8 s.top - s.top }, ?_, rfl⟩
            rw [hchar, if_neg (fun he : t = alignUp8 s.top => htne he.symm), if_pos rfl]
          · intro hq
            have hq2 : s.pool = none := hq
            rw [hq2] at hpool
            exact Bool.noConfusion hpool

theorem prevOk_update_links (s : Manager) (a0 : Nat) (b0 nb0 : Block)
    (hl : lookup s.blocks a0 = some b0) (hp : nb0.prev = b0.prev)
    (hn : nb0.next = b0.next) (hP : PrevOk s) :
    PrevOk { s with blocks := update s.blocks a0 nb0 } := by
  intro x xb hx pa hpa
  rw [lookup_update] at hx
  split at hx
  · next he =>
      cases hx
      obtain ⟨pb, hpb, hpbn⟩ := hP a0 b0 hl pa (by rw [← hp]; exact hpa)
      subst he
      by_cases hpe : a0 = pa
      · refine ⟨nb0, ?_, ?_⟩
        · rw [lookup_update, if_pos hpe]
        · rw [hn]
          rw [hpe] at hl
          rw [hl] at hpb
          cases hpb
          exact hpbn
      · refine ⟨pb, ?_, hpbn⟩
        rw [lookup_update, if_neg hpe]
        exact hpb
  · next he =>
      obtain ⟨pb, hpb, hpbn⟩ := hP x xb hx pa hpa
      by_cases hpe : a0 = pa
      · refine ⟨nb0, ?_, ?_⟩
        · rw [lookup_update, if_pos hpe]
        · rw [hn]
          rw [hpe] at hl
          rw [hl] at hpb
          cases hpb
          exact hpbn
      · refine ⟨pb, ?_, hpbn⟩
        rw [lookup_update, if_neg hpe]
        exact hpb

theorem nextInc_update_links (s : Manager) (a0 : Nat) (b0 nb0 : Block)
    (hl : lookup s.blocks a0 = some b0) (hn : nb0.next = b0.next) (hN : NextInc s) :
    NextInc { s with blocks := update s.blocks a0 nb0 } := by
  intro x xb hx na hna
  rw [lookup_update] at hx
  split at hx
  · next he =>
      cases hx
      subst he
      exact hN a0 b0 hl na (by rw [← hn]; exact hna)
  · exact hN x xb hx na hna

theorem keysBelow_update (s : Manager) (a0 : Nat) (b0 nb0 : Block)
    (hl : lookup s.blocks a0 = some b0) (hK : KeysBelow s) :
    KeysBelow { s with blocks := update s.blocks a0 nb0 } := by
  intro x xb hx
  rw [lookup_update] at hx
  split at hx
  · next he =>
      subst he
      exact hK a0 b0 hl
  · exact hK x xb hx

theorem keysAligned_update (s : Manager) (a0 : Nat) (b0 nb0 : Block)
    (hl : lookup s.blocks a0 = some b0) (hA : KeysAligned s) :
    KeysAligned { s with blocks := update s.blocks a0 nb0 } := by
  intro x xb hx
  rw [lookup_update] at hx
  split at hx
  · next he =>
      subst he
      exact hA a0 b0 hl
  · exact hA x xb hx

theorem tailOk_update_links (s : Manager) (a0 : Nat) (b0 nb0 : Block)
    (hl : lookup s.blocks a0 = some b0) (hn : nb0.next = b0.next) (hT : TailOk s) :
    TailOk { s with blocks := update s.blocks a0 nb0 } := by
  obtain ⟨hT1, hT2, hT3⟩ := hT
  refine ⟨hT1, ?_, ?_⟩
  · intro hq
    rw [hT2 hq] at hl
    exact Option.noConfusion hl
  · intro t0 ht0
    obtain ⟨tb0, htb0, htb0n⟩ := hT3 t0 ht0
    by_cases he : a0 = t0
    · refine ⟨nb0, ?_, ?_⟩
      · rw [lookup_update, if_pos he]
      · rw [hn]
        rw [he] at hl
        rw [hl] at htb0
        cases htb0
        exact htb0n
    · refine ⟨tb0, ?_, htb0n⟩
      rw [lookup_update, if_neg he]
      exact htb0

theorem prevOk_noteMaxFree (s : Manager) (f : Nat) (h : PrevOk s) :
    PrevOk (noteMaxFree s f) := by
  intro x xb hx pa hpa
  rw [(noteMaxFree_fields s f).2.2.2.2.2.1] at hx
  obtain ⟨pb, hpb, hpbn⟩ := h x xb hx pa hpa
  refine ⟨pb, ?_, hpbn⟩
  rw [(noteMaxFree_fields s f).2.2.2.2.2.1]
  exact hpb

theorem nextInc_noteMaxFree (s : Manager) (f : Nat) (h : NextInc s) :
    NextInc (noteMaxFree s f) := by
  intro x xb hx na hna
  rw [(noteMaxFree_fields s f).2.2.2.2.2.1] at hx
  exact h x xb hx na hna

theorem keysBelow_noteMaxFree (s : Manager) (f : Nat) (h : KeysBelow s) :
    KeysBelow (noteMaxFree s f) := by
  intro x xb hx
  rw [(noteMaxFree_fields s f).2.2.2.2.2.1] at hx
  rw [(noteMaxFree_fields s f).2.2.2.2.1]
  exact h x xb hx

theorem keysAligned_noteMaxFree (s : Manager) (f : Nat) (h : KeysAligned s) :
    KeysAligned (noteMaxFree s f) := by
  intro x xb hx
  rw [(noteMaxFree_fields s f).2.2.2.2.2.1] at hx
  exact h x xb hx

theorem tailOk_noteMaxFree (s : Manager) (f : Nat) (h : TailOk s) :
    TailOk (noteMaxFree s f) := by
  obtain ⟨hT1, hT2, hT3⟩ := h
  refine ⟨?_, ?_, ?_⟩
  · rw [(noteMaxFree_fields s f).2.2.1, (noteMaxFree_fields s f).2.2.2.1]
    exact hT1
  · intro hq
    rw [(noteMaxFree_fields s f).2.2.1] at hq
    rw [(noteMaxFree_fields s f).2.2.2.2.2.1]
    exact hT2 hq
  · intro t0 ht0
    rw [(noteMaxFree_fields s f).2.2.2.1] at ht0
    obtain ⟨tb0, htb0, htb0n⟩ := hT3 t0 ht0
    refine ⟨tb0, ?_, htb0n⟩
    rw [(noteMaxFree_fields s f).2.2.2.2.2.1]
    exact htb0

/-- Assembling the invariant after the closing max_free update of pfree. -/
theorem pfree_finish (s2 : Manager) (faddr : Nat) (fb : Block) (M : Nat)
    (hfb : lookup s2.blocks faddr = some fb)
    (hP2 : PrevOk s2) (hN2 : NextInc s2) (hK2 : KeysBelow s2)
    (hA2 : KeysAligned s2) (hT5 : TailOk s2) (hM : s2.max_free = M)
    (hBM2 : ∀ a b, lookup s2.blocks a = some b → b.available = true →
      ¬ a = faddr → b.size ≤ M)
    (hpx : ¬ s2.pool = none) :
    Inv (noteMaxFree s2 faddr) := by
  obtain ⟨hbk, hbound⟩ := noteMaxFree_spec s2 faddr fb hfb
  refine ⟨?_, prevOk_noteMaxFree s2 faddr hP2, nextInc_noteMaxFree s2 faddr hN2,
    keysBelow_noteMaxFree s2 faddr hK2, keysAligned_noteMaxFree s2 faddr hA2,
    tailOk_noteMaxFree s2 faddr hT5, ?_⟩
  · intro x xb hx hav
    rw [hbk] at hx
    by_cases he : x = faddr
    · subst he
      rw [hfb] at hx
      cases hx
      exact hbound
    · have h1 := hBM2 x xb hx hav he
      have h2 := (noteMaxFree_fields s2 faddr).2.2.2.2.2.2
      omega
  · intro hq
    rw [(noteMaxFree_fields s2 faddr).2.1] at hq
    exact absurd hq hpx

/-- Preservation of the structural invariants by one forward merge, given a
well-formed target block t with successor n.  The bound clause tracks that
only the merge target may exceed M afterwards; the final clause is a frame
property for untouched addresses. -/
theorem forward_merge_inv (s : Manager) (t n : Nat) (tb nbb : Block) (M : Nat)
    (hlt : lookup s.blocks t = some tb) (htn : tb.next = some n)
    (hln : lookup s.blocks n = some nbb)
    (hP : PrevOk s) (hN : NextInc s) (hK : KeysBelow s) (hA : KeysAligned s)
    (hT1 : s.head = none ↔ s.tail = none) (hT2 : s.head = none → s.blocks = [])
    (hT3 : ∀ t0, s.tail = some t0 → ∃ tb0, lookup s.blocks t0 = some tb0 ∧ tb0.next = none)
    (hBM : ∀ a b, lookup s.blocks a = some b → b.available = true → ¬ a = t →
      ¬ a = n → b.size ≤ M) :
    PrevOk (forward_merge s t) ∧ NextInc (forward_merge s t) ∧
    KeysBelow (forward_merge s t) ∧ KeysAligned (forward_merge s t) ∧
    TailOk (forward_merge s t) ∧
    (∀ a b, lookup (forward_merge s t).blocks a = some b → b.available = true →
      ¬ a = t → b.size ≤ M) ∧
    (∃ b2, lookup (forward_merge s t).blocks t = some b2 ∧
      b2.available = tb.available ∧ b2.prev = tb.prev) ∧
    (∀ x, ¬ x = t → ¬ x = n → (∀ da2, nbb.next = some da2 → ¬ x = da2) →
      lookup (forward_merge s t).blocks x = lookup s.blocks x) := by
  have htlt : t < n := hN t tb hlt n htn
  have hnet : ¬ n = t := fun he => by omega
  cases hnn : nbb.next with
  | none =>
      rw [forward_merge_eq_last s t n tb nbb hlt htn hln hnn hnet]
      have hchar : ∀ x, lookup (update (update s.blocks t
          { tb with size := tb.size + nbb.size + nbb.top_gap + 32 + (8 - (tb.size + nbb.size + nbb.top_gap + 32) % 8), next := none }) n clearedBlock) x =
          if n = x then some clearedBlock
          else if t = x then some
            { tb with size := tb.size + nbb.size + nbb.top_gap + 32 + (8 - (tb.size + nbb.size + nbb.top_gap + 32) % 8), next := none }
          else lookup s.blocks x := by
        intro x
        rw [lookup_update, lookup_update]
      refine ⟨?_, ?_, ?_, ?_, ⟨hT1, ?_, ?_⟩, ?_, ?_, ?_⟩
      · intro x xb hx pa hpa
        rw [hchar] at hx
        split at hx
        · cases hx
          exact Option.noConfusion hpa
        · split at hx
          · next he2 =>
              cases hx
              obtain ⟨pb, hpb, hpbn⟩ := hP t tb hlt pa hpa
              have hA1 : ¬ n = pa := by
                intro he3
                rw [← he3, hln] at hpb
                cases hpb
                rw [hnn] at hpbn
                exact Option.noConfusion hpbn
              have hA2 : ¬ t = pa := by
                intro he3
                rw [← he3, hlt] at hpb
                cases hpb
                rw [htn] at hpbn
                exact hnet (Option.some.inj hpbn)
              refine ⟨pb, ?_, ?_⟩
              · rw [hchar, if_neg hA1, if_neg hA2]
                exact hpb
              · rw [← he2]
                exact hpbn
          · next he1 he2 =>
              obtain ⟨pb, hpb, hpbn⟩ := hP x xb hx pa hpa
              have hA1 : ¬ n = pa := by
                intro he3
                rw [← he3, hln] at hpb
                cases hpb
                rw [hnn] at hpbn
                exact Option.noConfusion hpbn
              have hA2 : ¬ t = pa := by
                intro he3
                rw [← he3, hlt] at hpb
                cases hpb
                rw [htn] at hpbn
                exact he1 (Option.some.inj hpbn)
              refine ⟨pb, ?_, hpbn⟩
              rw [hchar, if_neg hA1, if_neg hA2]
              exact hpb
      · intro x xb hx na2 hna
        rw [hchar] at hx
        split at hx
        · cases hx
          exact Option.noConfusion hna
        · split at hx
          · cases hx
            exact Option.noConfusion hna
          · exact hN x xb hx na2 hna
      · intro x xb hx
        rw [hchar] at hx
        dsimp only
        split at hx
        · next he =>
            subst he
            have := hK _ nbb hln
            omega
        · split at hx
          · next he =>
              subst he
              have := hK _ tb hlt
              omega
          · have := hK _ _ hx
            omega
      · intro x xb hx
        rw [hchar] at hx
        split at hx
        · next he =>
            subst he
            exact hA _ nbb hln
        · split at hx
          · next he =>
              subst he
              exact hA _ tb hlt
          · exact hA x xb hx
      · intro hq
        have hq2 : s.head = none := hq
        have := hlt
        rw [hT2 hq2] at this
        simp [lookup] at this
      · intro t0 ht0
        have ht0s : s.tail = some t0 := ht0
        obtain ⟨tb0, htb0, htb0n⟩ := hT3 t0 ht0s
        by_cases het : t = t0
        · rw [← het, hlt] at htb0
          cases htb0
          rw [htn] at htb0n
          exact Option.noConfusion htb0n
        · by_cases hen : n = t0
          · refine ⟨clearedBlock, ?_, rfl⟩
            rw [hchar, if_pos hen]
          · refine ⟨tb0, ?_, htb0n⟩
            rw [hchar, if_neg hen, if_neg het]
            exact htb0
      · intro x xb hx hav hxt
        rw [hchar] at hx
        split at hx
        · cases hx
          exact Bool.noConfusion hav
        · split at hx
          · next he2 =>
              exact absurd he2.symm hxt
          · next he1 he2 =>
              exact hBM x xb hx hav (fun hq => he2 hq.symm) (fun hq => he1 hq.symm)
      · refine ⟨{ tb with size := tb.size + nbb.size + nbb.top_gap + 32 + (8 - (tb.size + nbb.size + nbb.top_gap + 32) % 8), next := none }, ?_, rfl, rfl⟩
        rw [hchar, if_neg hnet, if_pos rfl]
      · intro x hx1 hx2 _
        rw [hchar, if_neg (fun he => hx2 he.symm), if_neg (fun he => hx1 he.symm)]
  | some da =>
      have hnda : n < da := hN n nbb hln da hnn
      have hdan : ¬ da = n := fun he => by omega
      have hdat : ¬ da = t := fun he => by omega
      cases hld : lookup s.blocks da with
      | some d =>
          rw [forward_merge_eq_splice s t n da tb nbb d hlt htn hln hnn hld hnet hdan]
          have hchar : ∀ x, lookup (update (update (update s.blocks t
              { tb with size := tb.size + nbb.size + nbb.top_gap + 32 + d.top_gap, next := some da }) da { d with prev := some t, top_gap := 0 })
              n clearedBlock) x =
              if n = x then some clearedBlock
              else if da = x then some { d with prev := some t, top_gap := 0 }
              else if t = x then some
                { tb with size := tb.size + nbb.size + nbb.top_gap + 32 + d.top_gap, next := some da }
              else lookup s.blocks x := by
            intro x
            rw [lookup_update, lookup_update, lookup_update]
          refine ⟨?_, ?_, ?_, ?_, ⟨hT1, ?_, ?_⟩, ?_, ?_, ?_⟩
          · intro x xb hx pa hpa
            rw [hchar] at hx
            split at hx
            · cases hx
              exact Option.noConfusion hpa
            · split at hx
              · next heda =>
                  cases hx
                  cases hpa
                  subst heda
                  refine ⟨{ tb with size := tb.size + nbb.size + nbb.top_gap + 32 + d.top_gap, next := some da }, ?_, rfl⟩
                  rw [hchar, if_neg hnet, if_neg hdat, if_pos rfl]
              · next heda =>
                  split at hx
                  · next het =>
                      cases hx
                      obtain ⟨pb, hpb, hpbn⟩ := hP t tb hlt pa hpa
                      have hA1 : ¬ n = pa := by
                        intro he3
                        rw [← he3, hln] at hpb
                        cases hpb
                        rw [hnn] at hpbn
                        exact hdat (Option.some.inj hpbn)
                      have hA2 : ¬ da = pa := by
                        intro he3
                        rw [← he3, hld] at hpb
                        cases hpb
                        have := hN da d hld t hpbn
                        omega
                      have hA3 : ¬ t = pa := by
                        intro he3
                        rw [← he3, hlt] at hpb
                        cases hpb
                        rw [htn] at hpbn
                        exact hnet (Option.some.inj hpbn)
                      refine ⟨pb, ?_, ?_⟩
                      · rw [hchar, if_neg hA1, if_neg hA2, if_neg hA3]
                        exact hpb
                      · rw [← het]
                        exact hpbn
                  · next he1 het =>
                      obtain ⟨pb, hpb, hpbn⟩ := hP x xb hx pa hpa
                      by_cases hpda : da = pa
                      · subst hpda
                        rw [hld] at hpb
                        cases hpb
                        refine ⟨{ d with prev := some t, top_gap := 0 }, ?_, hpbn⟩
                        rw [hchar, if_neg (fun he : n = da => hdan he.symm), if_pos rfl]
                      · have hA1 : ¬ n = pa := by
                          intro he3
                          rw [← he3, hln] at hpb
                          cases hpb
                          rw [hnn] at hpbn
                          exact heda (Option.some.inj hpbn)
                        have hA3 : ¬ t = pa := by
                          intro he3
                          rw [← he3, hlt] at hpb
                          cases hpb
                          rw [htn] at hpbn
                          exact he1 (Option.some.inj hpbn)
                        refine ⟨pb, ?_, hpbn⟩
                        rw [hchar, if_neg hA1, if_neg hpda, if_neg hA3]
                        exact hpb
          · intro x xb hx na2 hna
            rw [hchar] at hx
            split at hx
            · cases hx
              exact Option.noConfusion hna
            · split at hx
              · next heda =>
                  cases hx
                  subst heda
                  exact hN _ d hld na2 hna
              · split at hx
                · next het =>
                    cases hx
                    cases hna
                    omega
                · exact hN x xb hx na2 hna
          · intro x xb hx
            rw [hchar] at hx
            dsimp only
            split at hx
            · next he =>
                subst he
                exact hK _ nbb hln
            · split at hx
              · next he =>
                  subst he
                  exact hK _ d hld
              · split at hx
                · next he =>
                    subst he
                    exact hK _ tb hlt
                · exact hK x xb hx
          · intro x xb hx
            rw [hchar] at hx
            split at hx
            · next he =>
                subst he
                exact hA _ nbb hln
            · split at hx
              · next he =>
                  subst he
                  exact hA _ d hld
              · split at hx
                · next he =>
                    subst he
                    exact hA _ tb hlt
                · exact hA x xb hx
          · intro hq
            have hq2 : s.head = none := hq
            have := hlt
            rw [hT2 hq2] at this
            simp [lookup] at this
          · intro t0 ht0
            have ht0s : s.tail = some t0 := ht0
            obtain ⟨tb0, htb0, htb0n⟩ := hT3 t0 ht0s
            by_cases het : t = t0
            · rw [← het, hlt] at htb0
              cases htb0
              rw [htn] at htb0n
              exact Option.noConfusion htb0n
            · by_cases hen : n = t0
              · refine ⟨clearedBlock, ?_, rfl⟩
                rw [hchar, if_pos hen]
              · by_cases hed : da = t0
                · rw [← hed, hld] at htb0
                  cases htb0
                  refine ⟨{ d with prev := some t, top_gap := 0 }, ?_, htb0n⟩
                  rw [hchar, if_neg hen, if_pos hed]
                · refine ⟨tb0, ?_, htb0n⟩
                  rw [hchar, if_neg hen, if_neg hed, if_neg het]
                  exact htb0
          · intro x xb hx hav hxt
            rw [hchar] at hx
            split at hx
            · cases hx
              exact Bool.noConfusion hav
            · split at hx
              · next heda =>
                  cases hx
                  subst heda
                  exact hBM _ d hld hav hdat hdan
              · split at hx
                · next het =>
                    exact absurd het.symm hxt
                · next he1 heda het =>
                    exact hBM x xb hx hav (fun hq => het hq.symm) (fun hq => he1 hq.symm)
          · refine ⟨{ tb with size := tb.size + nbb.size + nbb.top_gap + 32 + d.top_gap, next := some da }, ?_, rfl, rfl⟩
            rw [hchar, if_neg hnet, if_neg hdat, if_pos rfl]
          · intro x hx1 hx2 hx3
            rw [hchar, if_neg (fun he => hx2 he.symm),
              if_neg (fun he => (hx3 da rfl) he.symm), if_neg (fun he => hx1 he.symm)]
      | none =>
          rw [forward_merge_eq_splice_noD s t n da tb nbb hlt htn hln hnn hld hnet]
          have hchar : ∀ x, lookup (update (update s.blocks t
              { tb with size := tb.size + nbb.size + nbb.top_gap + 32, next := some da }) n clearedBlock) x =
              if n = x then some clearedBlock
              else if t = x then some
                { tb with size := tb.size + nbb.size + nbb.top_gap + 32, next := some da }
              else lookup s.blocks x := by
            intro x
            rw [lookup_update, lookup_update]
          refine ⟨?_, ?_, ?_, ?_, ⟨hT1, ?_, ?_⟩, ?_, ?_, ?_⟩
          · intro x xb hx pa hpa
            rw [hchar] at hx
            split at hx
            · cases hx
              exact Option.noConfusion hpa
            · split at hx
              · next het =>
                  cases hx
                  obtain ⟨pb, hpb, hpbn⟩ := hP t tb hlt pa hpa
                  have hA1 : ¬ n = pa := by
                    intro he3
                    rw [← he3, hln] at hpb
                    cases hpb
                    rw [hnn] at hpbn
                    exact hdat (Option.some.inj hpbn)
                  have hA2 : ¬ t = pa := by
                    intro he3
                    rw [← he3, hlt] at hpb
                    cases hpb
                    rw [htn] at hpbn
                    exact hnet (Option.some.inj hpbn)
                  refine ⟨pb, ?_, ?_⟩
                  · rw [hchar, if_neg hA1, if_neg hA2]
                    exact hpb
                  · rw [← het]
                    exact hpbn
              · next he1 het =>
                  obtain ⟨pb, hpb, hpbn⟩ := hP x xb hx pa hpa
                  have hA1 : ¬ n = pa := by
                    intro he3
                    rw [← he3, hln] at hpb
                    cases hpb
                    rw [hnn] at hpbn
                    have hxda : da = x := Option.some.inj hpbn
                    rw [← hxda] at hx
                    rw [hld] at hx
                    exact Option.noConfusion hx
                  have hA2 : ¬ t = pa := by
                    intro he3
                    rw [← he3, hlt] at hpb
                    cases hpb
                    rw [htn] at hpbn
                    exact he1 (Option.some.inj hpbn)
                  refine ⟨pb, ?_, hpbn⟩
                  rw [hchar, if_neg hA1, if_neg hA2]
                  exact hpb
          · intro x xb hx na2 hna
            rw [hchar] at hx
            split at hx
            · cases hx
              exact Option.noConfusion hna
            · split at hx
              · next het =>
                  cases hx
                  cases hna
                  omega
              · exact hN x xb hx na2 hna
          · intro x xb hx
            rw [hchar] at hx
            dsimp only
            split at hx
            · next he =>
                subst he
                exact hK _ nbb hln
            · split at hx
              · next he =>
                  subst he
                  exact hK _ tb hlt
              · exact hK x xb hx
          · intro x xb hx
            rw [hchar] at hx
            split at hx
            · next he =>
                subst he
                exact hA _ nbb hln
            · split at hx
              · next he =>
                  subst he
                  exact hA _ tb hlt
              · exact hA x xb hx
          · intro hq
            have hq2 : s.head = none := hq
            have := hlt
            rw [hT2 hq2] at this
            simp [lookup] at this
          · intro t0 ht0
            have ht0s : s.tail = some t0 := ht0
            obtain ⟨tb0, htb0, htb0n⟩ := hT3 t0 ht0s
            by_cases het : t = t0
            · rw [← het, hlt] at htb0
              cases htb0
              rw [htn] at htb0n
              exact Option.noConfusion htb0n
            · by_cases hen : n = t0
              · refine ⟨clearedBlock, ?_, rfl⟩
                rw [hchar, if_pos hen]
              · refine ⟨tb0, ?_, htb0n⟩
                rw [hchar, if_neg hen, if_neg het]
                exact htb0
          · intro x xb hx hav hxt
            rw [hchar] at hx
            split at hx
            · cases hx
              exact Bool.noConfusion hav
            · split at hx
              · next het =>
                  exact absurd het.symm hxt
              · next he1 het =>
                  exact hBM x xb hx hav (fun hq => het hq.symm) (fun hq => he1 hq.symm)
          · refine ⟨{ tb with size := tb.size + nbb.size + nbb.top_gap + 32, next := some da }, ?_, rfl, rfl⟩
            rw [hchar, if_neg hnet, if_pos rfl]
          · intro x hx1 hx2 _
            rw [hchar, if_neg (fun he => hx2 he.symm), if_neg (fun he => hx1 he.symm)]

/-- Assembling the invariant over the backward-merge dispatch of pfree. -/
theorem pfree_backward_inv (s2 : Manager) (baddr : Nat) (bprev : Option Nat) (M : Nat)
    (hP2 : PrevOk s2) (hN2 : NextInc s2) (hK2 : KeysBelow s2) (hA2 : KeysAligned s2)
    (hT5 : TailOk s2) (hM : s2.max_free = M) (hpx : ¬ s2.pool = none)
    (hBM2 : ∀ a b, lookup s2.blocks a = some b → b.available = true → ¬ a = baddr →
      b.size ≤ M)
    (b2 : Block) (hb2l : lookup s2.blocks baddr = some b2) (hb2p : b2.prev = bprev) :
    Inv (pfree_backward s2 baddr bprev) := by
  unfold pfree_backward
  cases bprev with
  | none => exact pfree_finish s2 baddr b2 M hb2l hP2 hN2 hK2 hA2 hT5 hM hBM2 hpx
  | some paddr =>
      dsimp only
      cases hpl : lookup s2.blocks paddr with
      | none => exact pfree_finish s2 baddr b2 M hb2l hP2 hN2 hK2 hA2 hT5 hM hBM2 hpx
      | some pb =>
          dsimp only
          by_cases hav : pb.available = true
          · rw [if_pos hav]
            obtain ⟨pb', hpb', hpbn⟩ := hP2 baddr b2 hb2l paddr hb2p
            rw [hpl] at hpb'
            cases hpb'
            obtain ⟨FP, FN, FK, FA, FT, FB, ⟨pb2, hpb2, _, _⟩, _⟩ :=
              forward_merge_inv s2 paddr baddr pb b2 M hpl hpbn hb2l hP2 hN2 hK2 hA2
                hT5.1 hT5.2.1 hT5.2.2
                (fun a b hl hv _ h2 => hBM2 a b hl hv h2)
            exact pfree_finish (forward_merge s2 paddr) paddr pb2 M hpb2 FP FN FK FA FT
              (by rw [(forward_merge_fields s2 paddr).2.1]; exact hM) FB
              (by rw [(forward_merge_fields s2 paddr).2.2.1]; exact hpx)
          · rw [if_neg hav]
            exact pfree_finish s2 baddr b2 M hb2l hP2 hN2 hK2 hA2 hT5 hM hBM2 hpx

theorem inv_pfree (s : Manager) (p : Nat) (h : Inv s) : Inv (pfree s p) := by
  obtain ⟨hB, hP, hN, hK, hA, hT, hPool⟩ := h
  unfold pfree
  split
  · exact ⟨hB, hP, hN, hK, hA, hT, hPool⟩
  · next hp0 =>
      dsimp only
      cases hlb : lookup s.blocks (p - 32) with
      | none => exact ⟨hB, hP, hN, hK, hA, hT, hPool⟩
      | some blk =>
          obtain ⟨bp, bn, bsz, bav, bg⟩ := blk
          dsimp only
          have hpx0 : ¬ s.pool = none := by
            intro hq
            rw [hPool hq] at hlb
            simp [Manager.initial, lookup] at hlb
          have hl1 : lookup (update s.blocks (p - 32)
              { prev := bp, next := bn, size := bsz, available := true, top_gap := bg })
              (p - 32) = some
              { prev := bp, next := bn, size := bsz, available := true, top_gap := bg } := by
            rw [lookup_update, if_pos rfl]
          have hP1 := prevOk_update_links s (p - 32) ⟨bp, bn, bsz, bav, bg⟩
            { prev := bp, next := bn, size := bsz, available := true, top_gap := bg }
            hlb rfl rfl hP
          have hN1 := nextInc_update_links s (p - 32) ⟨bp, bn, bsz, bav, bg⟩
            { prev := bp, next := bn, size := bsz, available := true, top_gap := bg }
            hlb rfl hN
          have hK1 := keysBelow_update s (p - 32) ⟨bp, bn, bsz, bav, bg⟩
            { prev := bp, next := bn, size := bsz, available := true, top_gap := bg }
            hlb hK
          have hA1 := keysAligned_update s (p - 32) ⟨bp, bn, bsz, bav, bg⟩
            { prev := bp, next := bn, size := bsz, available := true, top_gap := bg }
            hlb hA
          have hT1x := tailOk_update_links s (p - 32) ⟨bp, bn, bsz, bav, bg⟩
            { prev := bp, next := bn, size := bsz, available := true, top_gap := bg }
            hlb rfl hT
          have hBM1 : ∀ a b, lookup (update s.blocks (p - 32)
              { prev := bp, next := bn, size := bsz, available := true, top_gap := bg })
              a = some b → b.available = true → ¬ a = p - 32 → b.size ≤ s.max_free := by
            intro a b hl hv ha
            rw [lookup_update, if_neg (fun he => ha he.symm)] at hl
            exact hB a b hl hv
          cases bn with
          | none =>
              dsimp only
              rw [if_neg (fun hq : false = true => Bool.noConfusion hq)]
              exact pfree_backward_inv _ (p - 32) bp s.max_free hP1 hN1 hK1 hA1
                hT1x rfl hpx0 hBM1
                { prev := bp, next := none, size := bsz, available := true, top_gap := bg }
                hl1 rfl
          | some naddr =>
              dsimp only
              split
              · next hfwd =>
                  cases hnb : lookup (update s.blocks (p - 32)
                      { prev := bp, next := some naddr, size := bsz, available := true,
                        top_gap := bg }) naddr with
                  | none =>
                      rw [hnb] at hfwd
                      exact absurd hfwd (by simp)
                  | some nb =>
                      rw [hnb] at hfwd
                      dsimp only at hfwd
                      obtain ⟨FP, FN, FK, FA, FT, FB, ⟨b2, hb2, hb2av, hb2prev⟩, _⟩ :=
                        forward_merge_inv
                          { s with
                            blocks := update s.blocks (p - 32)
                                        { prev := bp, next := some naddr, size := bsz,
                                          available := true, top_gap := bg } }
                          (p - 32) naddr
                          { prev := bp, next := some naddr, size := bsz,
                            available := true, top_gap := bg } nb s.max_free
                          hl1 rfl hnb hP1 hN1 hK1 hA1 hT1x.1 hT1x.2.1 hT1x.2.2
                          (fun a b hl hv h1 _ => hBM1 a b hl hv h1)
                      exact pfree_backward_inv _ (p - 32) bp s.max_free FP FN FK FA
                        FT (by rw [(forward_merge_fields _ _).2.1])
                        (by rw [(forward_merge_fields _ _).2.2.1]; exact hpx0)
                        FB b2 hb2 hb2prev
              · next hfwd =>
                  exact pfree_backward_inv _ (p - 32) bp s.max_free hP1 hN1 hK1
                    hA1 hT1x rfl hpx0 hBM1
                    { prev := bp, next := some naddr, size := bsz, available := true,
                      top_gap := bg } hl1 rfl

theorem pmalloc_max_free (s : Manager) (n : Nat) :
    ((pmalloc s n).2).max_free = s.max_free := by
  unfold pmalloc
  repeat' split
  all_goals try rfl
  dsimp only
  exact (insert_node_at_tail_fields _ _ _).2.1

theorem pfree_max_free_mono (s : Manager) (p : Nat) :
    s.max_free ≤ (pfree s p).max_free := by
  simp only [pfree, pfree_backward]
  split
  · exact Nat.le_refl _
  · split
    · exact Nat.le_refl _
    · repeat' split
      all_goals refine Nat.le_trans ?_ (noteMaxFree_fields _ _).2.2.2.2.2.2
      all_goals repeat rw [(forward_merge_fields _ _).2.1]
      all_goals exact Nat.le_refl _

theorem reachable_inv (s : Manager) (h : Reachable s) : Inv s := by
  induction h with
  | initial => exact inv_initial
  | @step s1 op hr hl ih =>
      cases op with
      | init m n => exact inv_mempool_init s1 m n ih
      | malloc n => exact inv_pmalloc s1 n ih hl.1
      | calloc n es => exact inv_pmalloc s1 ((n * es) % U64) ih hl.1
      | free p => exact inv_pfree s1 p ih
      | teardown => exact inv_mempool_free s1 ih

/-- A reachable state exercising the max_free bound: the arena starts at
address 1000 with 128 bytes, one 16-byte block is handed out at 1032 and
then freed, which raises max_free to 16. -/
def scenarioC5 : Manager :=
  pfree ((pmalloc ((mempool_init Manager.initial (some 1000) 128).2) 16).2) 1032

/-- C5: at every state reachable by contract-respecting calls, max_free
bounds the size of every available block; pmalloc never changes max_free
at all, and pfree never decreases it. -/
theorem claim_C5 :
    (∀ s, Reachable s → ∀ a b, lookup s.blocks a = some b → b.available = true →
      b.size ≤ s.max_free) ∧
    (∀ s n, ((pmalloc s n).2).max_free = s.max_free) ∧
    (∀ s p, s.max_free ≤ (pfree s p).max_free) :=
  ⟨fun s hr a b hl hv => (reachable_inv s hr).1 a b hl hv,
   fun s n => pmalloc_max_free s n,
   fun s p => pfree_max_free_mono s p⟩

theorem claim_C5_witness :
    16 ≤ scenarioC5.max_free ∧
    ((pmalloc scenarioC5 8).2).max_free = scenarioC5.max_free ∧
    scenarioC5.max_free ≤ (pfree scenarioC5 0).max_free := by
  have hr : Reachable scenarioC5 := by
    show Reachable (applyOp (applyOp (applyOp Manager.initial
      (Op.init (some 1000) 128)) (Op.malloc 16)) (Op.free 1032))
    exact Reachable.step (Reachable.step (Reachable.step Reachable.initial
      (by decide)) (by decide)) (by decide)
  exact ⟨claim_C5.1 scenarioC5 hr 1000
           { prev := none, next := none, size := 16, available := true,
             top_gap := 0 } rfl rfl,
         claim_C5.2.1 scenarioC5 8,
         claim_C5.2.2 scenarioC5 0⟩

theorem pmalloc_some_aligned (s : Manager) (n p : Nat) (s2 : Manager)
    (h : pmalloc s n = (some p, s2)) : p % 8 = 0 := by
  unfold pmalloc at h
  split at h
  · simp at h
  · split at h
    · simp at h
    · split at h
      · dsimp only at h
        injection h with h1 h2
        injection h1 with h1
        rw [← h1]
        have h8 := alignUp8_mod s.top
        omega
      · simp at h

/-- Modelled from the spec: resize is declared in the public header but has
no definition anywhere in the source, so its behavior is rendered from the
specification text.  A null pointer reduces to allocate; a zero size
reduces to free; the new size is rounded up to the 8-byte quantum; a
rounded size equal to the current block size is a no-op returning the same
pointer; a strictly smaller one shrinks in place, materializing a new free
successor block only when the surplus clears the split threshold of a
32-byte header plus a minimal 8-byte payload, and returns the same pointer
either way; a strictly larger one allocates fresh, frees the old block on
success, and on allocation failure returns failure with the old block
fully intact. -/
def prealloc (s : Manager) (p : Nat) (newSize : Nat) : Option Nat × Manager :=
  if p = 0 then pmalloc s newSize
  else if newSize = 0 then (none, pfree s p)
  else
    match lookup s.blocks (p - 32) with
    | none => (none, s)
    | some blk =>
        let rounded := alignUp8 newSize
        if rounded = blk.size then (some p, s)
        else if rounded < blk.size then
          if 40 ≤ blk.size - rounded then
            let naddr := p + rounded
            let nblk : Block := { prev := some (p - 32), next := blk.next,
                                  size := blk.size - rounded - 32,
                                  available := true, top_gap := 0 }
            let bs1 := update s.blocks (p - 32)
                         { blk with size := rounded, next := some naddr }
            let bs2 := update bs1 naddr nblk
            let bs3 := match blk.next with
              | some da =>
                  (match lookup bs2 da with
                   | some db => update bs2 da { db with prev := some naddr }
                   | none => bs2)
              | none => bs2
            let t2 := match blk.next with
              | none => some naddr
              | some _ => s.tail
            (some p, { s with blocks := bs3, tail := t2 })
          else (some p, s)
        else
          match pmalloc s newSize with
          | (some q, s1) => (some q, pfree s1 p)
          | (none, _) => (none, s)

theorem prealloc_some_aligned (s : Manager) (p n q : Nat) (s2 : Manager)
    (hp : p % 8 = 0) (h : prealloc s p n = (some q, s2)) : q % 8 = 0 := by
  unfold prealloc at h
  split at h
  · exact pmalloc_some_aligned s n q s2 h
  · split at h
    · simp at h
    · split at h
      · simp at h
      · dsimp only at h
        split at h
        · injection h with h1 h2
          injection h1 with h1
          omega
        · split at h
          · split at h
            · injection h with h1 h2
              injection h1 with h1
              omega
            · injection h with h1 h2
              injection h1 with h1
              omega
          · split at h
            · next q1 s1 heq =>
                injection h with h1 h2
                injection h1 with h1
                rw [← h1]
                exact pmalloc_some_aligned s n q1 s1 heq
            · simp at h

/-- C6: a successful pmalloc returns a pointer that is a multiple of 8 and
sits exactly 32 bytes above a block header recorded in the chain; at every
reachable state every header address is 8-byte aligned, so every payload
pointer, which is the header address plus the 32-byte header, is 8-byte
aligned as well; and a successful spec-modelled resize returns a pointer
that is a multiple of 8 whenever it is handed an aligned or null pointer. -/
theorem claim_C6 :
    (∀ s, Reachable s → ∀ n p s2, pmalloc s n = (some p, s2) →
      p % 8 = 0 ∧ ∃ b, lookup s2.blocks (p - 32) = some b) ∧
    (∀ s, Reachable s → ∀ a b, lookup s.blocks a = some b →
      a % 8 = 0 ∧ (a + 32) % 8 = 0) ∧
    (∀ s p n q s2, p % 8 = 0 → prealloc s p n = (some q, s2) → q % 8 = 0) := by
  refine ⟨?_, ?_, fun s p n q s2 hp h => prealloc_some_aligned s p n q s2 hp h⟩
  · intro s hr n p s2 h
    refine ⟨pmalloc_some_aligned s n p s2 h, ?_⟩
    have hT := (reachable_inv s hr).2.2.2.2.2.1
    have ht : s.tail = none → s.head = none := fun hq => hT.1.mpr hq
    unfold pmalloc at h
    split at h
    · simp at h
    · split at h
      · simp at h
      · split at h
        · dsimp only at h
          injection h with h1 h2
          injection h1 with h1
          obtain ⟨pv, nx, hl⟩ := lookup_insert_self s (alignUp8 s.top)
            { prev := none, next := none, size := n, available := false,
              top_gap := alignUp8 s.top - s.top } ht
          have hp32 : p - 32 = alignUp8 s.top := by omega
          rw [← h2, hp32]
          exact ⟨_, hl⟩
        · simp at h
  · intro s hr a b hl
    have hA := (reachable_inv s hr).2.2.2.2.1 a b hl
    exact ⟨hA, by omega⟩

/-- The active one-block state used to exercise claim C6 concretely. -/
def scenarioC6 : Manager := (pmalloc ((mempool_init Manager.initial
  (some 1000) 128).2) 16).2

theorem claim_C6_witness :
    (1032 % 8 = 0 ∧ ∃ b, lookup scenarioC6.blocks (1032 - 32) = some b) ∧
    (1000 % 8 = 0 ∧ (1000 + 32) % 8 = 0) ∧
    1032 % 8 = 0 := by
  have hr1 : Reachable ((mempool_init Manager.initial (some 1000) 128).2) := by
    show Reachable (applyOp Manager.initial (Op.init (some 1000) 128))
    exact Reachable.step Reachable.initial (by decide)
  have hr2 : Reachable scenarioC6 := by
    show Reachable (applyOp ((mempool_init Manager.initial (some 1000) 128).2)
      (Op.malloc 16))
    exact Reachable.step hr1 (by decide)
  refine ⟨claim_C6.1 ((mempool_init Manager.initial (some 1000) 128).2) hr1
           16 1032 scenarioC6 rfl,
         claim_C6.2.1 scenarioC6 hr2 1000
           { prev := none, next := none, size := 16, available := false,
             top_gap := 0 } rfl,
         claim_C6.2.2 scenarioC6 1032 8 1032 scenarioC6 (by decide) rfl⟩

/-- C7: mempool_init fails and leaves the manager untouched when the pool
is already active or the requested capacity is zero, and likewise when the
underlying malloc of the arena fails; from a reachable inactive state a
successful call establishes exactly the advertised post-state, with the
top cursor at the buffer start, available equal to the full capacity, an
empty chain and max_free zero. -/
theorem claim_C7 :
    (∀ s m n, s.pool.isSome = true ∨ n = 0 → mempool_init s m n = (false, s)) ∧
    (∀ s n, mempool_init s none n = (false, s)) ∧
    (∀ s base n, Reachable s → s.pool = none → ¬ n = 0 →
      mempool_init s (some base) n =
        (true, { head := none, tail := none, max_free := 0, available := n,
                 pool := some base, top := base, blocks := [] })) := by
  refine ⟨?_, ?_, ?_⟩
  · intro s m n hcond
    unfold mempool_init
    rw [if_pos hcond]
  · intro s n
    unfold mempool_init
    split
    · rfl
    · rfl
  · intro s base n hr hpool hn
    have h0 := (reachable_inv s hr).2.2.2.2.2.2 hpool
    rw [h0]
    unfold mempool_init
    rw [if_neg ?hc]
    case hc =>
      intro hq
      cases hq with
      | inl h1 => simp [Manager.initial] at h1
      | inr h1 => exact hn h1
    rfl

theorem claim_C7_witness :
    mempool_init Manager.initial (some 5) 0 = (false, Manager.initial) ∧
    mempool_init Manager.initial none 7 = (false, Manager.initial) ∧
    mempool_init Manager.initial (some 1000) 128 =
      (true, { head := none, tail := none, max_free := 0, available := 128,
               pool := some 1000, top := 1000, blocks := [] }) :=
  ⟨claim_C7.1 Manager.initial (some 5) 0 (Or.inr rfl),
   claim_C7.2.1 Manager.initial 7,
   claim_C7.2.2 Manager.initial 1000 128 Reachable.initial rfl (by decide)⟩

end Mempool
